import Mathlib

/-!
Verification development for the pasteguard privacy-gateway core.

The TypeScript sources are shallowly embedded as executable Lean definitions:

* conflict resolution (`resolveConflicts`, `resolveConflictsSimple`, ...)
  from `src/unnamed/part_000`;
* the routing decision (`decideRoute`) from
  `src/src/services/decision.test.ts`;
* the SSE unmasking transform (`createUnmaskingStream`) from
  `src/src/services/stream-transformer.ts`, modelled as a pure function
  over a list of text chunks (`runStream`).

JavaScript numbers are modelled as `Int` (offsets) and `Rat` (scores);
text is modelled as `List Char` (`Str`) so that every operation is
executable and kernel-reducible.  JavaScript `Array.prototype.sort` with a
comparator `cmp` is a stable sort placing `a` before `b` when
`cmp a b ≤ 0`; it is embedded as `List.insertionSort r` where
`r a b ↔ cmp a b ≤ 0` (Mathlib's `insertionSort` is exactly that stable
insertion sort).

The masking/redaction context operations (`unmaskStreamChunk`,
`flushStreamBuffer`, ...) live in repository files that are not available
(`./masking`, `../secrets/redact`); they are modelled from the
specification where a claim needs their behaviour, and the stream
transform itself is parameterised over them (`CtxOps`) wherever a claim
holds for every possible context behaviour.  Likewise `JSON.parse` /
`JSON.stringify` of SSE envelopes is abstracted as a `Codec`.
-/

namespace PasteGuard

/-! ## Data model (src/unnamed/part_000 lines 8-18) -/

/-- Entity span produced by the PII detector: half-open interval with a
confidence score and a categorical type (part_000 lines 8-13). -/
structure EntityWithScore where
  start : Int
  «end» : Int
  score : Rat
  entity_type : String
  deriving DecidableEq, Repr

/-- Structural interval supertype (part_000 lines 15-18). -/
structure Interval where
  start : Int
  «end» : Int
  deriving DecidableEq, Repr

/-! ## Interval geometry (part_000 lines 20-26) -/

/-- `overlaps(a, b)`: `a.start < b.end && b.start < a.end` (part_000 line 21). -/
def overlaps (a b : EntityWithScore) : Bool :=
  decide (a.start < b.«end») && decide (b.start < a.«end»)

/-- `isContainedIn(a, b)`: `b.start <= a.start && b.end >= a.end`
(part_000 line 25). -/
def isContainedIn (a b : EntityWithScore) : Bool :=
  decide (b.start ≤ a.start) && decide (b.«end» ≥ a.«end»)

/-! ## Sort comparators

Each JS comparator `cmp` is embedded as the relation `cmp a b ≤ 0`. -/

/-- Comparator `(a, b) => a.start - b.start` of `mergeOverlapping`
(part_000 line 48), as the relation `cmp a b ≤ 0`. -/
def relStart (a b : EntityWithScore) : Prop := a.start ≤ b.start

instance : DecidableRel relStart :=
  fun a b => inferInstanceAs (Decidable (a.start ≤ b.start))

instance : IsTotal EntityWithScore relStart :=
  ⟨fun a b => Int.le_total a.start b.start⟩

instance : IsTrans EntityWithScore relStart :=
  ⟨fun _ _ _ hab hbc => le_trans hab hbc⟩

/-- Comparator of `removeConflicting` (part_000 lines 73-77): start
ascending, then end ascending, then score descending, as `cmp a b ≤ 0`. -/
def relRC (a b : EntityWithScore) : Prop :=
  a.start < b.start ∨
    (a.start = b.start ∧
      (a.«end» < b.«end» ∨ (a.«end» = b.«end» ∧ b.score ≤ a.score)))

instance : DecidableRel relRC :=
  fun a b => by unfold relRC; infer_instance

instance : IsTotal EntityWithScore relRC := by
  constructor
  intro a b
  unfold relRC
  rcases lt_trichotomy a.start b.start with h | h | h
  · exact Or.inl (Or.inl h)
  · rcases lt_trichotomy a.«end» b.«end» with h2 | h2 | h2
    · exact Or.inl (Or.inr ⟨h, Or.inl h2⟩)
    · rcases le_total b.score a.score with h3 | h3
      · exact Or.inl (Or.inr ⟨h, Or.inr ⟨h2, h3⟩⟩)
      · exact Or.inr (Or.inr ⟨h.symm, Or.inr ⟨h2.symm, h3⟩⟩)
    · exact Or.inr (Or.inr ⟨h.symm, Or.inl h2⟩)
  · exact Or.inr (Or.inl h)

instance : IsTrans EntityWithScore relRC := by
  constructor
  intro a b c hab hbc
  unfold relRC at *
  rcases hab with h1 | ⟨e1, h1⟩
  · rcases hbc with h2 | ⟨e2, _⟩
    · exact Or.inl (h1.trans h2)
    · exact Or.inl (e2 ▸ h1)
  · rcases hbc with h2 | ⟨e2, h2⟩
    · exact Or.inl (e1 ▸ h2)
    · refine Or.inr ⟨e1.trans e2, ?_⟩
      rcases h1 with h1 | ⟨f1, s1⟩
      · rcases h2 with h2 | ⟨f2, _⟩
        · exact Or.inl (h1.trans h2)
        · exact Or.inl (f2 ▸ h1)
      · rcases h2 with h2 | ⟨f2, s2⟩
        · exact Or.inl (f1 ▸ h2)
        · exact Or.inr ⟨f1.trans f2, s2.trans s1⟩

/-- Comparator of `resolveConflictsSimple` (part_000 lines 129-132): start
ascending, then length descending, as `cmp a b ≤ 0`. -/
def relSimple (a b : Interval) : Prop :=
  a.start < b.start ∨
    (a.start = b.start ∧ b.«end» - b.start ≤ a.«end» - a.start)

instance : DecidableRel relSimple :=
  fun a b => by unfold relSimple; infer_instance

instance : IsTotal Interval relSimple := by
  constructor
  intro a b
  unfold relSimple
  rcases lt_trichotomy a.start b.start with h | h | h
  · exact Or.inl (Or.inl h)
  · rcases le_total (b.«end» - b.start) (a.«end» - a.start) with h2 | h2
    · exact Or.inl (Or.inr ⟨h, h2⟩)
    · exact Or.inr (Or.inr ⟨h.symm, h2⟩)
  · exact Or.inr (Or.inl h)

instance : IsTrans Interval relSimple := by
  constructor
  intro a b c hab hbc
  unfold relSimple at *
  rcases hab with h1 | ⟨e1, h1⟩
  · rcases hbc with h2 | ⟨e2, _⟩
    · exact Or.inl (h1.trans h2)
    · exact Or.inl (e2 ▸ h1)
  · rcases hbc with h2 | ⟨e2, h2⟩
    · exact Or.inl (e1 ▸ h2)
    · exact Or.inr ⟨e1.trans e2, h2.trans h1⟩

/-! ## mergeOverlapping (part_000 lines 42-64) -/

/-- The scan loop of `mergeOverlapping` (part_000 lines 51-61): `last` is
the last element of the result array; an overlapping current interval
replaces it by the merged interval, otherwise it is pushed. -/
def mergeScan (merge : EntityWithScore → EntityWithScore → EntityWithScore)
    (last : EntityWithScore) : List EntityWithScore → List EntityWithScore
  | [] => [last]
  | c :: cs =>
    if overlaps c last then mergeScan merge (merge last c) cs
    else last :: mergeScan merge c cs

/-- `mergeOverlapping(intervals, merge)` (part_000 lines 42-64). -/
def mergeOverlapping
    (merge : EntityWithScore → EntityWithScore → EntityWithScore)
    (intervals : List EntityWithScore) : List EntityWithScore :=
  if intervals.length ≤ 1 then intervals
  else
    match List.insertionSort relStart intervals with
    | [] => []
    | x :: xs => mergeScan merge x xs

/-! ## removeConflicting (part_000 lines 69-95) -/

/-- Exact index coincidence test of part_000 line 83. -/
def sameIndices (a b : EntityWithScore) : Bool :=
  decide (a.start = b.start) && decide (a.«end» = b.«end»)

/-- `result.some(kept => ...)` of part_000 lines 82-87. -/
def hasConflict (entity : EntityWithScore) (result : List EntityWithScore) :
    Bool :=
  result.any fun kept => sameIndices entity kept || isContainedIn entity kept

/-- The accumulation loop of `removeConflicting` (part_000 lines 79-92). -/
def rcLoop (result : List EntityWithScore) :
    List EntityWithScore → List EntityWithScore
  | [] => result
  | e :: es =>
    if hasConflict e result then rcLoop result es
    else rcLoop (result ++ [e]) es

/-- `removeConflicting(entities)` (part_000 lines 69-95). -/
def removeConflicting (entities : List EntityWithScore) :
    List EntityWithScore :=
  if entities.length ≤ 1 then entities
  else rcLoop [] (List.insertionSort relRC entities)

/-! ## groupBy and resolveConflicts (part_000 lines 28-37, 103-120) -/

/-- First-seen-order deduplication, the key order of a JS `Map` built by
`groupBy` (part_000 lines 28-37) and of `new Set` (decision.test.ts
line 25). -/
def dedupFirst : List String → List String :=
  go []
where
  /-- Skip keys already seen, keeping first occurrences in order. -/
  go (seen : List String) : List String → List String
    | [] => []
    | x :: xs => if seen.contains x then go seen xs else x :: go (x :: seen) xs

/-- Iteration order of `groupBy(entities, e => e.entity_type).values()`:
one group per first-seen type, each group in input order. -/
def groupsOf (entities : List EntityWithScore) : List (List EntityWithScore) :=
  (dedupFirst (entities.map (·.entity_type))).map fun ty =>
    entities.filter fun e => e.entity_type == ty

/-- The merge callback of `resolveConflicts` (part_000 lines 110-115):
spread of `a` with widened interval and maximal score. -/
def mergeSameType (a b : EntityWithScore) : EntityWithScore :=
  { a with
    start := min a.start b.start
    «end» := max a.«end» b.«end»
    score := max a.score b.score }

/-- Phase 1 of `resolveConflicts` (part_000 lines 106-117): merge
overlapping same-type spans group by group and concatenate. -/
def afterMergePhase (entities : List EntityWithScore) :
    List EntityWithScore :=
  ((groupsOf entities).map (mergeOverlapping mergeSameType)).flatten

/-- `resolveConflicts(entities)` (part_000 lines 103-120). -/
def resolveConflicts (entities : List EntityWithScore) :
    List EntityWithScore :=
  if entities.length ≤ 1 then entities
  else removeConflicting (afterMergePhase entities)

/-! ## resolveConflictsSimple (part_000 lines 126-146) -/

/-- The greedy loop of `resolveConflictsSimple` (part_000 lines 136-143):
keep `current` iff `current.start >= last.end` where `last` is the last
kept span. -/
def simpleScan (last : Interval) : List Interval → List Interval
  | [] => [last]
  | c :: cs =>
    if c.start ≥ last.«end» then last :: simpleScan c cs
    else simpleScan last cs

/-- `resolveConflictsSimple(entities)` (part_000 lines 126-146). -/
def resolveConflictsSimple (entities : List Interval) : List Interval :=
  if entities.length ≤ 1 then entities
  else
    match List.insertionSort relSimple entities with
    | [] => []
    | x :: xs => simpleScan x xs

/-! ## Spec model of resolveConflictsSimple (for claim C6)

A second definition written from the specification's words: "sort by
`(start asc, length desc)` ...; greedily keep a span only if its
`start >= end` of the last kept span". -/

/-- Spec-phrased sort key: start ascending, ties by length descending. -/
def relSimpleSpec (a b : Interval) : Prop :=
  a.start < b.start ∨
    (a.start = b.start ∧ b.«end» - b.start ≤ a.«end» - a.start)

instance : DecidableRel relSimpleSpec :=
  fun a b => by unfold relSimpleSpec; infer_instance

/-- Spec-phrased greedy filter: keep a span iff its start is at least the
end of the last kept span; the first span is always kept. -/
def greedyKeep (lastEnd : Int) : List Interval → List Interval
  | [] => []
  | c :: cs =>
    if lastEnd ≤ c.start then c :: greedyKeep c.«end» cs
    else greedyKeep lastEnd cs

/-- The scoreless resolver as the specification describes it. -/
def simpleSpecModel (entities : List Interval) : List Interval :=
  match List.insertionSort relSimpleSpec entities with
  | [] => []
  | x :: xs => x :: greedyKeep x.«end» xs

/-! ## Routing decision (decision.test.ts lines 9-36)

The input result types are declared in repository files not available
here; their fields are taken from the specification's interface section. -/

/-- Backend provider. -/
inductive Provider where
  | upstream
  | local
  deriving DecidableEq, Repr

/-- Routing configuration `{default, on_pii_detected}`. -/
structure RoutingConfig where
  default : Provider
  on_pii_detected : Provider
  deriving DecidableEq, Repr

/-- Secrets policy action. -/
inductive SecretsAction where
  | block
  | redact
  | route_local
  deriving DecidableEq, Repr

/-- Modelled from the spec: secrets match `{type, count}` — the
declaration lives in the missing file `src/secrets/detect`. -/
structure SecretsMatch where
  type : String
  count : Nat
  deriving DecidableEq, Repr

/-- Modelled from the spec: derived redaction span `{start, end, type}`
from the missing file `src/secrets/detect`. -/
structure SecretsRedaction where
  start : Int
  «end» : Int
  type : String
  deriving DecidableEq, Repr

/-- Modelled from the spec: secrets detection result
`{detected, matches[], redactions[]}` from the missing file
`src/secrets/detect`. -/
structure SecretsDetectionResult where
  detected : Bool
  «matches» : List SecretsMatch
  redactions : List SecretsRedaction
  deriving DecidableEq, Repr

/-- Modelled from the spec: PII detection result
`{hasPII, newEntities[], entitiesByMessage[][], language,
languageFallback, scanTimeMs}` from the missing file
`./pii-detector`. -/
structure PIIDetectionResult where
  hasPII : Bool
  newEntities : List EntityWithScore
  entitiesByMessage : List (List EntityWithScore)
  language : String
  languageFallback : Bool
  scanTimeMs : Nat
  deriving DecidableEq, Repr

/-- Routing decision value `{provider, reason}`. -/
structure RouteDecision where
  provider : Provider
  reason : String
  deriving DecidableEq, Repr

/-- `secretsResult?.detected` with optional chaining. -/
def secretsDetectedFlag : Option SecretsDetectionResult → Bool
  | some sr => sr.detected
  | none => false

/-- Secret types taken from the matches in order
(decision.test.ts line 17). -/
def secretTypesOf : Option SecretsDetectionResult → List String
  | some sr => sr.«matches».map (·.type)
  | none => []

/-- `decideRoute(piiResult, routing, secretsResult?, secretsAction?)`
(decision.test.ts lines 9-36). -/
def decideRoute (piiResult : PIIDetectionResult) (routing : RoutingConfig)
    (secretsResult : Option SecretsDetectionResult)
    (secretsAction : Option SecretsAction) : RouteDecision :=
  if secretsDetectedFlag secretsResult && decide (secretsAction = some SecretsAction.route_local) then
    { provider := Provider.local
      reason := "Secrets detected (route_local): " ++
        String.intercalate ", " (secretTypesOf secretsResult) }
  else if piiResult.hasPII then
    { provider := routing.on_pii_detected
      reason := "PII detected: " ++
        String.intercalate ", "
          (dedupFirst (piiResult.newEntities.map (·.entity_type))) }
  else
    { provider := routing.default, reason := "No PII detected" }

/-! ## Stream transformer (stream-transformer.ts lines 17-140)

Text is `Str := List Char`; a chunk is the decoded text of one upstream
read (`TextDecoder` carries split multi-byte characters itself, so the
character level is the faithful granularity). -/

/-- Character-level text. -/
abbrev Str := List Char

/-- `chunk.split("\n")` (stream-transformer.ts line 74). -/
def splitNL : Str → List Str
  | [] => [[]]
  | c :: rest =>
    if c = '\n' then [] :: splitNL rest
    else
      match splitNL rest with
      | [] => [[c]]
      | l :: ls => (c :: l) :: ls

/-- The SSE data prefix `"data: "`. -/
def dataPrefix : Str := "data: ".toList

/-- The done sentinel payload `"[DONE]"`. -/
def doneData : Str := "[DONE]".toList

/-- One `"\n"`. -/
def nl1 : Str := "\n".toList

/-- Event terminator `"\n\n"`. -/
def nl2 : Str := "\n\n".toList

/-- Abstraction of `JSON.parse` / `JSON.stringify` on SSE event
envelopes: `parse` yields an envelope or fails, `content` reads
`choices?.[0]?.delta?.content || ""`, `setContent` writes
`choices[0].delta.content`, `stringify` re-serialises, and
`flushEnvelope` serialises the synthetic final flush envelope built at
stream-transformer.ts lines 55-66 around a content string. -/
structure Codec (Env : Type) where
  parse : Str → Option Env
  content : Env → Str
  setContent : Env → Str → Env
  stringify : Env → Str
  flushEnvelope : Str → Str

/-- A masking/redaction context with its per-chunk step
`(buffer, newText) ↦ {output, remainingBuffer}` and its end-of-stream
flush, with context and config already applied. -/
structure CtxOps where
  step : Str → Str → Str × Str
  flush : Str → Str

/-- The two carry-over buffers (stream-transformer.ts lines 25-26). -/
structure BufSt where
  piiBuffer : Str
  secretsBuffer : Str
  deriving DecidableEq, Repr

/-- Processing of one line of a chunk
(stream-transformer.ts lines 76-130), returning the updated buffers and
the list of enqueued outputs. -/
def processLine {Env : Type} (codec : Codec Env)
    (pii sec : Option CtxOps) (st : BufSt) (line : Str) :
    BufSt × List Str :=
  if dataPrefix.isPrefixOf line then
    let data := line.drop 6
    if data = doneData then (st, [dataPrefix ++ doneData ++ nl2])
    else
      match codec.parse data with
      | none => (st, [line ++ nl1])
      | some env =>
        let content := codec.content env
        if content.isEmpty then (st, [dataPrefix ++ data ++ nl2])
        else
          let p1 :=
            match pii with
            | some o => o.step st.piiBuffer content
            | none => (content, st.piiBuffer)
          let p2 :=
            match sec with
            | some o =>
              if p1.1.isEmpty then (p1.1, st.secretsBuffer)
              else o.step st.secretsBuffer p1.1
            | none => (p1.1, st.secretsBuffer)
          let st' : BufSt := ⟨p1.2, p2.2⟩
          if p2.1.isEmpty then (st', [])
          else
            (st',
              [dataPrefix ++ codec.stringify (codec.setContent env p2.1) ++ nl2])
  else if line.any (fun c => !c.isWhitespace) then (st, [line ++ nl1])
  else (st, [])

/-- Fold `processLine` over the lines of a chunk. -/
def processLines {Env : Type} (codec : Codec Env)
    (pii sec : Option CtxOps) (st : BufSt) :
    List Str → BufSt × List Str
  | [] => (st, [])
  | l :: ls =>
    let r1 := processLine codec pii sec st l
    let r2 := processLines codec pii sec r1.1 ls
    (r2.1, r1.2 ++ r2.2)

/-- Processing of one decoded chunk (stream-transformer.ts lines 73-131). -/
def processChunk {Env : Type} (codec : Codec Env)
    (pii sec : Option CtxOps) (st : BufSt) (chunk : Str) :
    BufSt × List Str :=
  processLines codec pii sec st (splitNL chunk)

/-- Processing of the whole sequence of upstream chunks. -/
def processChunks {Env : Type} (codec : Codec Env)
    (pii sec : Option CtxOps) (st : BufSt) :
    List Str → BufSt × List Str
  | [] => (st, [])
  | c :: cs =>
    let r1 := processChunk codec pii sec st c
    let r2 := processChunks codec pii sec r1.1 cs
    (r2.1, r1.2 ++ r2.2)

/-- The end-of-stream flush (stream-transformer.ts lines 36-68): flush
the PII buffer first, then the secrets buffer, through the configured
flush operation when a context is present, raw otherwise; when the
combined text is non-empty, enqueue one synthetic final event. -/
def flushOutputs {Env : Type} (codec : Codec Env)
    (pii sec : Option CtxOps) (st : BufSt) : List Str :=
  let f1 :=
    if st.piiBuffer.isEmpty then []
    else
      match pii with
      | some o => o.flush st.piiBuffer
      | none => st.piiBuffer
  let f2 :=
    if st.secretsBuffer.isEmpty then []
    else
      match sec with
      | some o => o.flush st.secretsBuffer
      | none => st.secretsBuffer
  let flushed := f1 ++ f2
  if flushed.isEmpty then []
  else [dataPrefix ++ codec.flushEnvelope flushed ++ nl2]

/-- How the upstream source ends: normal end of stream, or a read error
thrown by `reader.read()`. -/
inductive UpstreamEnd where
  | eof
  | fail
  deriving DecidableEq, Repr

/-- Terminal state of the produced stream: `controller.close()` or
`controller.error(...)`. -/
inductive Terminal where
  | closed
  | errored
  deriving DecidableEq, Repr

/-- The produced stream: enqueued outputs in order, then the terminal
event. -/
structure StreamOutput where
  events : List Str
  terminal : Terminal
  deriving DecidableEq, Repr

/-- `createUnmaskingStream` (stream-transformer.ts lines 17-140) as a
pure function: chunks are processed in order; on normal end the buffers
are flushed and the stream closes; a read error is caught by the
surrounding try/catch and propagated via `controller.error` with no
flush. -/
def runStream {Env : Type} (codec : Codec Env)
    (pii sec : Option CtxOps) (chunks : List Str) (ending : UpstreamEnd) :
    StreamOutput :=
  let r := processChunks codec pii sec ⟨[], []⟩ chunks
  match ending with
  | UpstreamEnd.fail => ⟨r.2, Terminal.errored⟩
  | UpstreamEnd.eof => ⟨r.2 ++ flushOutputs codec pii sec r.1, Terminal.closed⟩

/-! ## Spec model of the masking context (for claim C1)

Modelled from the spec: `unmaskStreamChunk(buffer, newText, context,
config)` "scans the concatenation of buffer+newContent for complete
placeholder tokens, substitutes them via the context, and determines the
longest suffix that is a possible prefix of a placeholder token ... that
must be withheld from output and held in remainingBuffer"; the context is
modelled as a finite association list from placeholder token to original
value.  These operations live in the missing files `./masking` /
`../secrets/redact`. -/

/-- A masking context: placeholder tokens with their original values. -/
abbrev MaskCtx := List (Str × Str)

/-- First context entry whose (non-empty) token is a prefix of `s`. -/
def findTok (ctx : MaskCtx) (s : Str) : Option (Str × Str) :=
  ctx.find? fun tv => !tv.1.isEmpty && tv.1.isPrefixOf s

/-- Is `s` a prefix of some placeholder token of the context? -/
def isPrefixTok (ctx : MaskCtx) (s : Str) : Bool :=
  ctx.any fun tv => s.isPrefixOf tv.1

/-- Fuel-indexed scan: substitute complete tokens left to right and
withhold the remaining suffix as soon as it is a possible token prefix.
The fuel is only a structural-recursion device; `scanUnmask` applies it
with enough fuel. -/
def scanGo (ctx : MaskCtx) : Nat → Str → Str × Str
  | 0, s => ([], s)
  | _ + 1, [] => ([], [])
  | n + 1, c :: cs =>
    match findTok ctx (c :: cs) with
    | some (t, v) =>
      let r := scanGo ctx n ((c :: cs).drop t.length)
      (v ++ r.1, r.2)
    | none =>
      if isPrefixTok ctx (c :: cs) then ([], c :: cs)
      else
        let r := scanGo ctx n cs
        (c :: r.1, r.2)

/-- One streaming scan over a whole text, with adequate fuel. -/
def scanStream (ctx : MaskCtx) (s : Str) : Str × Str :=
  scanGo ctx s.length s

/-- Modelled from the spec: `unmaskStreamChunk` over the concatenation of
the carry-over buffer and the new content. -/
def unmaskStreamChunk (ctx : MaskCtx) (buffer newText : Str) : Str × Str :=
  scanStream ctx (buffer ++ newText)

/-- Fuel-indexed full substitution: every token occurrence replaced by
its value, nothing withheld. -/
def substGo (ctx : MaskCtx) : Nat → Str → Str
  | 0, s => s
  | _ + 1, [] => []
  | n + 1, c :: cs =>
    match findTok ctx (c :: cs) with
    | some (t, v) => v ++ substGo ctx n ((c :: cs).drop t.length)
    | none => c :: substGo ctx n cs

/-- Full substitution of placeholder tokens by their original values:
the unmasked text of a masked text. -/
def substAll (ctx : MaskCtx) (s : Str) : Str :=
  substGo ctx s.length s

/-- Modelled from the spec: `flushStreamBuffer` resolves every complete
placeholder token left in the buffer and passes the remaining text
through unchanged. -/
def flushStreamBuffer (ctx : MaskCtx) (buffer : Str) : Str :=
  substAll ctx buffer

/-- The context operations of a PII masking context. -/
def piiOps (ctx : MaskCtx) : CtxOps :=
  ⟨fun b c => unmaskStreamChunk ctx b c, fun b => flushStreamBuffer ctx b⟩

/-- Well-formed token grammar: tokens are non-empty and no token is a
proper prefix of another (true of any fixed-format placeholder grammar
with a terminator). -/
def WFCtx (ctx : MaskCtx) : Prop :=
  (∀ tv ∈ ctx, tv.1 ≠ []) ∧
  (∀ tv ∈ ctx, ∀ tv' ∈ ctx, tv.1 <+: tv'.1 → tv.1 = tv'.1)

instance (ctx : MaskCtx) : Decidable (WFCtx ctx) := by
  unfold WFCtx; infer_instance

/-- Content-level reference stream: feed the pieces of the masked text
one by one through `unmaskStreamChunk`, returning the concatenated
emitted output and the final buffer. -/
def feedAll (ctx : MaskCtx) (b : Str) : List Str → Str × Str
  | [] => ([], b)
  | c :: cs =>
    let r1 := unmaskStreamChunk ctx b c
    let r2 := feedAll ctx r1.2 cs
    (r1.1 ++ r2.1, r2.2)

/-! ## Concrete mini-codec (for claims C1 and C8)

A concrete envelope serialisation sufficient for round-trip statements:
the envelope is its content string, serialised as the spec's
`delta.content` JSON shape. -/

/-- Serialised envelope prefix (the braces are `\x7b`/`\x7d`). -/
def envPre : Str := "\x7b\"content\":\"".toList

/-- Serialised envelope suffix. -/
def envSuf : Str := "\"\x7d".toList

/-- Serialise a content string as an envelope. -/
def wrapEnv (c : Str) : Str := envPre ++ c ++ envSuf

/-- Parse a serialised envelope back to its content. -/
def parseEnv (d : Str) : Option Str :=
  if envPre.isPrefixOf d ∧ envSuf.isSuffixOf d ∧
      envPre.length + envSuf.length ≤ d.length then
    some ((d.drop envPre.length).take ((d.drop envPre.length).length - 2))
  else none

/-- The concrete codec. -/
def miniCodec : Codec Str :=
  ⟨parseEnv, id, fun _ c => c, wrapEnv, wrapEnv⟩

/-- One complete SSE data event carrying the piece `p`. -/
def mkEvent (p : Str) : Str := dataPrefix ++ wrapEnv p ++ nl2

/-- Read the content back out of an enqueued event; non-events decode to
the empty string. -/
def decodeContent (e : Str) : Str :=
  if dataPrefix.isPrefixOf e ∧ nl2.isSuffixOf e ∧
      dataPrefix.length + nl2.length ≤ e.length then
    match parseEnv ((e.drop 6).take ((e.drop 6).length - 2)) with
    | some c => c
    | none => []
  else []

/-- The lines produced by splitting a concatenation of complete SSE
events on `'\n'`: one data line and one blank line per event, and the
final empty remainder. -/
def evLines (ps : List Str) : List Str :=
  (ps.map fun p => [dataPrefix ++ wrapEnv p, ([] : Str)]).flatten ++ [[]]

/-! ## Helper lemmas: dedupFirst and grouping -/

theorem dedupFirst_go_mem (y : String) :
    ∀ (l seen : List String), y ∈ dedupFirst.go seen l ↔ y ∈ l ∧ y ∉ seen := by
  intro l
  induction l with
  | nil => intro seen; simp [dedupFirst.go]
  | cons x xs ih =>
    intro seen
    by_cases hc : x ∈ seen
    · have hb : seen.contains x = true := List.elem_iff.mpr hc
      rw [dedupFirst.go, if_pos hb, ih]
      constructor
      · rintro ⟨h1, h2⟩; exact ⟨List.mem_cons_of_mem _ h1, h2⟩
      · rintro ⟨h1, h2⟩
        rcases List.mem_cons.mp h1 with h | h
        · exact absurd (h ▸ hc) h2
        · exact ⟨h, h2⟩
    · have hb : seen.contains x = false := by
        cases hcc : seen.contains x
        · rfl
        · exact absurd (List.elem_iff.mp hcc) hc
      rw [dedupFirst.go, if_neg (by rw [hb]; exact Bool.false_ne_true),
        List.mem_cons, ih]
      constructor
      · rintro (rfl | ⟨h1, h2⟩)
        · exact ⟨List.mem_cons_self _ _, hc⟩
        · exact ⟨List.mem_cons_of_mem _ h1, fun hy => h2 (List.mem_cons_of_mem _ hy)⟩
      · rintro ⟨h1, h2⟩
        by_cases hyx : y = x
        · exact Or.inl hyx
        · have h : y ∈ xs := by
            rcases List.mem_cons.mp h1 with h | h
            · exact absurd h hyx
            · exact h
          refine Or.inr ⟨h, fun hy => ?_⟩
          rcases List.mem_cons.mp hy with h' | h'
          · exact hyx h'
          · exact h2 h'

theorem mem_dedupFirst (y : String) (l : List String) :
    y ∈ dedupFirst l ↔ y ∈ l := by
  rw [dedupFirst, dedupFirst_go_mem]
  simp

theorem dedupFirst_go_nodup :
    ∀ (l seen : List String), (dedupFirst.go seen l).Nodup := by
  intro l
  induction l with
  | nil => intro seen; simp [dedupFirst.go]
  | cons x xs ih =>
    intro seen
    rw [dedupFirst.go]
    by_cases hc : seen.contains x = true
    · rw [if_pos hc]; exact ih seen
    · rw [if_neg hc]
      refine List.Nodup.cons (fun hx => ?_) (ih (x :: seen))
      have := (dedupFirst_go_mem x xs (x :: seen)).mp hx
      exact this.2 (List.mem_cons_self _ _)

theorem dedupFirst_nodup (l : List String) : (dedupFirst l).Nodup :=
  dedupFirst_go_nodup l []

theorem flatten_filters_perm :
    ∀ (keys : List String) (l : List EntityWithScore), keys.Nodup →
      (∀ e ∈ l, e.entity_type ∈ keys) →
      (keys.map fun ty => l.filter fun e => e.entity_type == ty).flatten.Perm l := by
  intro keys
  induction keys with
  | nil =>
    intro l _ hcov
    have : l = [] := by
      rw [List.eq_nil_iff_forall_not_mem]
      intro e he
      exact absurd (hcov e he) (List.not_mem_nil _)
    simp [this]
  | cons k ks ih =>
    intro l hnd hcov
    have hknot : k ∉ ks := (List.nodup_cons.mp hnd).1
    have hnd' : ks.Nodup := (List.nodup_cons.mp hnd).2
    rw [List.map_cons, List.flatten_cons]
    have hfilters :
        (ks.map fun ty => l.filter fun e => e.entity_type == ty) =
        (ks.map fun ty =>
          (l.filter fun e => !(e.entity_type == k)).filter
            fun e => e.entity_type == ty) := by
      apply List.map_congr_left
      intro ty hty
      rw [List.filter_filter]
      apply (List.filter_congr ?_).symm
      intro e _
      cases he : (e.entity_type == ty)
      · rfl
      · have : e.entity_type = ty := by simpa using he
        have : ¬(e.entity_type == k) = true := by
          simp [this]
          rintro rfl
          exact hknot hty
        simp [he, this]
    rw [hfilters]
    have hcov' : ∀ e ∈ l.filter fun e => !(e.entity_type == k),
        e.entity_type ∈ ks := by
      intro e he
      have hmem := List.mem_of_mem_filter he
      have hne : ¬(e.entity_type == k) = true := by
        have := List.of_mem_filter he
        simpa using this
      rcases List.mem_cons.mp (hcov e hmem) with h | h
      · exact absurd (by simp [h]) hne
      · exact h
    have hperm := ih (l.filter fun e => !(e.entity_type == k)) hnd' hcov'
    exact (List.Perm.append_left _ hperm).trans (List.filter_append_perm _ l)

theorem groupsOf_flatten_perm (l : List EntityWithScore) :
    (groupsOf l).flatten.Perm l := by
  apply flatten_filters_perm _ _ (dedupFirst_nodup _)
  intro e he
  rw [mem_dedupFirst]
  exact List.mem_map_of_mem _ he

theorem groupsOf_types (l : List EntityWithScore) :
    ∀ g ∈ groupsOf l, ∃ ty, ∀ e ∈ g, e.entity_type = ty := by
  intro g hg
  rcases List.mem_map.mp hg with ⟨ty, _, rfl⟩
  refine ⟨ty, fun e he => ?_⟩
  have := List.of_mem_filter he
  simpa using this

/-! ## Helper lemmas: the merge phase -/

theorem mergeScan_start_lb :
    ∀ (cs : List EntityWithScore) (last : EntityWithScore),
      List.Sorted relStart (last :: cs) →
      ∀ y ∈ mergeScan mergeSameType last cs, last.start ≤ y.start := by
  intro cs
  induction cs with
  | nil =>
    intro last _ y hy
    rw [mergeScan] at hy
    simp at hy
    exact hy ▸ le_refl _
  | cons c cs ih =>
    intro last hS y hy
    have hlc : relStart last c := List.rel_of_sorted_cons hS c (List.mem_cons_self _ _)
    rw [mergeScan] at hy
    by_cases hov : overlaps c last = true
    · rw [if_pos hov] at hy
      have hmin : (mergeSameType last c).start = last.start := by
        simp [mergeSameType]
        exact hlc
      have hS' : List.Sorted relStart (mergeSameType last c :: cs) := by
        rw [List.sorted_cons]
        refine ⟨fun b hb => ?_, (List.sorted_cons.mp ((List.sorted_cons.mp hS).2)).2⟩
        have := List.rel_of_sorted_cons hS b (List.mem_cons_of_mem _ hb)
        unfold relStart at *
        rw [hmin]
        exact this
      have := ih (mergeSameType last c) hS' y hy
      rw [hmin] at this
      exact this
    · rw [if_neg hov] at hy
      rcases List.mem_cons.mp hy with rfl | hy
      · exact le_refl _
      · have hS' : List.Sorted relStart (c :: cs) := (List.sorted_cons.mp hS).2
        exact le_trans hlc (ih c hS' y hy)

theorem mergeScan_valid :
    ∀ (cs : List EntityWithScore) (last : EntityWithScore),
      last.start < last.«end» → (∀ c ∈ cs, c.start < c.«end») →
      ∀ y ∈ mergeScan mergeSameType last cs, y.start < y.«end» := by
  intro cs
  induction cs with
  | nil =>
    intro last hl _ y hy
    rw [mergeScan] at hy; simp at hy; exact hy ▸ hl
  | cons c cs ih =>
    intro last hl hcs y hy
    rw [mergeScan] at hy
    by_cases hov : overlaps c last = true
    · rw [if_pos hov] at hy
      have hm : (mergeSameType last c).start < (mergeSameType last c).«end» := by
        simp only [mergeSameType]
        have : min last.start c.start ≤ last.start := min_le_left _ _
        have h2 : last.«end» ≤ max last.«end» c.«end» := le_max_left _ _
        calc min last.start c.start ≤ last.start := min_le_left _ _
          _ < last.«end» := hl
          _ ≤ max last.«end» c.«end» := le_max_left _ _
      exact ih (mergeSameType last c) hm (fun x hx => hcs x (List.mem_cons_of_mem _ hx)) y hy
    · rw [if_neg hov] at hy
      rcases List.mem_cons.mp hy with rfl | hy
      · exact hl
      · exact ih c (hcs c (List.mem_cons_self _ _))
          (fun x hx => hcs x (List.mem_cons_of_mem _ hx)) y hy

theorem mergeScan_type (ty : String) :
    ∀ (cs : List EntityWithScore) (last : EntityWithScore),
      last.entity_type = ty → (∀ c ∈ cs, c.entity_type = ty) →
      ∀ y ∈ mergeScan mergeSameType last cs, y.entity_type = ty := by
  intro cs
  induction cs with
  | nil =>
    intro last hl _ y hy
    rw [mergeScan] at hy; simp at hy; exact hy ▸ hl
  | cons c cs ih =>
    intro last hl hcs y hy
    rw [mergeScan] at hy
    by_cases hov : overlaps c last = true
    · rw [if_pos hov] at hy
      exact ih (mergeSameType last c) (by simpa [mergeSameType] using hl)
        (fun x hx => hcs x (List.mem_cons_of_mem _ hx)) y hy
    · rw [if_neg hov] at hy
      rcases List.mem_cons.mp hy with rfl | hy
      · exact hl
      · exact ih c (hcs c (List.mem_cons_self _ _))
          (fun x hx => hcs x (List.mem_cons_of_mem _ hx)) y hy

theorem mergeScan_sep :
    ∀ (cs : List EntityWithScore) (last : EntityWithScore),
      List.Sorted relStart (last :: cs) →
      last.start < last.«end» → (∀ c ∈ cs, c.start < c.«end») →
      (mergeScan mergeSameType last cs).Pairwise
        (fun a b => a.«end» ≤ b.start) := by
  intro cs
  induction cs with
  | nil =>
    intro last _ _ _
    rw [mergeScan]
    exact List.pairwise_singleton _ _
  | cons c cs ih =>
    intro last hS hl hcs
    have hlc : relStart last c := List.rel_of_sorted_cons hS c (List.mem_cons_self _ _)
    have hcv : c.start < c.«end» := hcs c (List.mem_cons_self _ _)
    have hcs' : ∀ x ∈ cs, x.start < x.«end» :=
      fun x hx => hcs x (List.mem_cons_of_mem _ hx)
    rw [mergeScan]
    by_cases hov : overlaps c last = true
    · rw [if_pos hov]
      have hmin : (mergeSameType last c).start = last.start := by
        simp [mergeSameType]; exact hlc
      have hS' : List.Sorted relStart (mergeSameType last c :: cs) := by
        rw [List.sorted_cons]
        refine ⟨fun b hb => ?_, (List.sorted_cons.mp ((List.sorted_cons.mp hS).2)).2⟩
        have := List.rel_of_sorted_cons hS b (List.mem_cons_of_mem _ hb)
        unfold relStart at *
        rw [hmin]; exact this
      have hmv : (mergeSameType last c).start < (mergeSameType last c).«end» := by
        simp only [mergeSameType]
        calc min last.start c.start ≤ last.start := min_le_left _ _
          _ < last.«end» := hl
          _ ≤ max last.«end» c.«end» := le_max_left _ _
      exact ih (mergeSameType last c) hS' hmv hcs'
    · rw [if_neg hov]
      have hovp : ¬(c.start < last.«end» ∧ last.start < c.«end») := by
        intro hx
        apply hov
        simp [overlaps, hx.1, hx.2]
      have hsep : last.«end» ≤ c.start := by
        have h1 : last.start ≤ c.start := hlc
        omega
      have hS' : List.Sorted relStart (c :: cs) := (List.sorted_cons.mp hS).2
      rw [List.pairwise_cons]
      refine ⟨fun y hy => ?_, ih c hS' hcv hcs'⟩
      exact le_trans hsep (mergeScan_start_lb cs c hS' y hy)

theorem mergeScan_no_overlap :
    ∀ (cs : List EntityWithScore) (last : EntityWithScore),
      (last :: cs).Pairwise (fun a b => a.«end» ≤ b.start) →
      mergeScan mergeSameType last cs = last :: cs := by
  intro cs
  induction cs with
  | nil => intro last _; rw [mergeScan]
  | cons c cs ih =>
    intro last hp
    have hsep : last.«end» ≤ c.start :=
      (List.pairwise_cons.mp hp).1 c (List.mem_cons_self _ _)
    have hov : overlaps c last = false := by
      simp [overlaps]
      intro h
      omega
    rw [mergeScan, if_neg (by rw [hov]; exact Bool.false_ne_true)]
    rw [ih c (List.pairwise_cons.mp hp).2]

theorem mergeOverlapping_valid (g : List EntityWithScore)
    (hv : ∀ e ∈ g, e.start < e.«end») :
    ∀ y ∈ mergeOverlapping mergeSameType g, y.start < y.«end» := by
  by_cases hlen : g.length ≤ 1
  · rw [mergeOverlapping, if_pos hlen]; exact hv
  · rw [mergeOverlapping, if_neg hlen]
    cases hs : List.insertionSort relStart g with
    | nil => intro y hy; simp at hy
    | cons x xs =>
      have hmem : ∀ e ∈ x :: xs, e ∈ g := by
        intro e he
        exact (List.perm_insertionSort relStart g).mem_iff.mp (hs ▸ he)
      exact mergeScan_valid xs x (hv x (hmem x (List.mem_cons_self _ _)))
        (fun e he => hv e (hmem e (List.mem_cons_of_mem _ he)))

theorem mergeOverlapping_type (g : List EntityWithScore) (ty : String)
    (ht : ∀ e ∈ g, e.entity_type = ty) :
    ∀ y ∈ mergeOverlapping mergeSameType g, y.entity_type = ty := by
  by_cases hlen : g.length ≤ 1
  · rw [mergeOverlapping, if_pos hlen]; exact ht
  · rw [mergeOverlapping, if_neg hlen]
    cases hs : List.insertionSort relStart g with
    | nil => intro y hy; simp at hy
    | cons x xs =>
      have hmem : ∀ e ∈ x :: xs, e ∈ g := by
        intro e he
        exact (List.perm_insertionSort relStart g).mem_iff.mp (hs ▸ he)
      exact mergeScan_type ty xs x (ht x (hmem x (List.mem_cons_self _ _)))
        (fun e he => ht e (hmem e (List.mem_cons_of_mem _ he)))

theorem mergeOverlapping_sep (g : List EntityWithScore)
    (hv : ∀ e ∈ g, e.start < e.«end») :
    (mergeOverlapping mergeSameType g).Pairwise
      (fun a b => a.«end» ≤ b.start) := by
  by_cases hlen : g.length ≤ 1
  · rw [mergeOverlapping, if_pos hlen]
    rcases g with _ | ⟨a, _ | ⟨b, t⟩⟩
    · exact List.Pairwise.nil
    · exact List.pairwise_singleton _ _
    · simp at hlen
  · rw [mergeOverlapping, if_neg hlen]
    cases hs : List.insertionSort relStart g with
    | nil => exact List.Pairwise.nil
    | cons x xs =>
      have hmem : ∀ e ∈ x :: xs, e ∈ g := by
        intro e he
        exact (List.perm_insertionSort relStart g).mem_iff.mp (hs ▸ he)
      have hsorted : List.Sorted relStart (x :: xs) :=
        hs ▸ List.sorted_insertionSort relStart g
      exact mergeScan_sep xs x hsorted (hv x (hmem x (List.mem_cons_self _ _)))
        (fun e he => hv e (hmem e (List.mem_cons_of_mem _ he)))

theorem mergeOverlapping_id (g : List EntityWithScore)
    (hsorted : List.Sorted relStart g)
    (hp : g.Pairwise (fun a b => a.«end» ≤ b.start)) :
    mergeOverlapping mergeSameType g = g := by
  by_cases hlen : g.length ≤ 1
  · rw [mergeOverlapping, if_pos hlen]
  · rw [mergeOverlapping, if_neg hlen, hsorted.insertionSort_eq]
    cases g with
    | nil => rfl
    | cons x xs => exact mergeScan_no_overlap xs x hp

/-! ## Helper lemmas: removeConflicting -/

theorem rcLoop_append :
    ∀ (l res : List EntityWithScore),
      ∃ s, rcLoop res l = res ++ s ∧ s.Sublist l := by
  intro l
  induction l with
  | nil => intro res; exact ⟨[], by rw [rcLoop, List.append_nil], List.Sublist.refl _⟩
  | cons e es ih =>
    intro res
    rw [rcLoop]
    by_cases hc : hasConflict e res = true
    · rw [if_pos hc]
      obtain ⟨s, hs, hsub⟩ := ih res
      exact ⟨s, hs, hsub.cons e⟩
    · rw [if_neg hc]
      obtain ⟨s, hs, hsub⟩ := ih (res ++ [e])
      refine ⟨e :: s, ?_, hsub.cons₂ e⟩
      rw [hs, List.append_assoc]
      rfl

theorem hasConflict_eq_false_iff (e : EntityWithScore)
    (res : List EntityWithScore) :
    hasConflict e res = false ↔
      ∀ k ∈ res, sameIndices e k = false ∧ isContainedIn e k = false := by
  rw [hasConflict, List.any_eq_false]
  constructor
  · intro h k hk
    have := h k hk
    constructor
    · cases hsi : sameIndices e k
      · rfl
      · exact absurd (by rw [hsi]; simp) this
    · cases hci : isContainedIn e k
      · rfl
      · exact absurd (by rw [hci]; simp) this
  · intro h k hk
    rw [(h k hk).1, (h k hk).2]
    simp

theorem rcLoop_pairwise :
    ∀ (l res : List EntityWithScore),
      res.Pairwise
        (fun a b => sameIndices b a = false ∧ isContainedIn b a = false) →
      (rcLoop res l).Pairwise
        (fun a b => sameIndices b a = false ∧ isContainedIn b a = false) := by
  intro l
  induction l with
  | nil => intro res h; rw [rcLoop]; exact h
  | cons e es ih =>
    intro res h
    rw [rcLoop]
    by_cases hc : hasConflict e res = true
    · rw [if_pos hc]; exact ih res h
    · rw [if_neg hc]
      apply ih
      rw [List.pairwise_append]
      refine ⟨h, List.pairwise_singleton _ _, fun a ha b hb => ?_⟩
      have hb' : b = e := List.mem_singleton.mp hb
      rw [hb']
      have hcf : hasConflict e res = false := by
        cases hcc : hasConflict e res
        · rfl
        · exact absurd hcc hc
      exact (hasConflict_eq_false_iff e res).mp hcf a ha

theorem rcLoop_id :
    ∀ (l res : List EntityWithScore),
      (res ++ l).Pairwise
        (fun a b => sameIndices b a = false ∧ isContainedIn b a = false) →
      rcLoop res l = res ++ l := by
  intro l
  induction l with
  | nil => intro res _; rw [rcLoop, List.append_nil]
  | cons e es ih =>
    intro res h
    have hcross := (List.pairwise_append.mp h).2.2
    have hcf : hasConflict e res = false := by
      rw [hasConflict_eq_false_iff]
      intro k hk
      exact hcross k hk e (List.mem_cons_self _ _)
    rw [rcLoop, if_neg (by rw [hcf]; exact Bool.false_ne_true)]
    have h' : ((res ++ [e]) ++ es).Pairwise
        (fun a b => sameIndices b a = false ∧ isContainedIn b a = false) := by
      rw [List.append_assoc]
      exact h
    rw [ih (res ++ [e]) h', List.append_assoc]
    rfl

theorem removeConflicting_pairwise (l : List EntityWithScore) :
    (removeConflicting l).Pairwise
      (fun a b => sameIndices b a = false ∧ isContainedIn b a = false) := by
  by_cases hlen : l.length ≤ 1
  · rw [removeConflicting, if_pos hlen]
    rcases l with _ | ⟨a, _ | ⟨b, t⟩⟩
    · exact List.Pairwise.nil
    · exact List.pairwise_singleton _ _
    · simp at hlen
  · rw [removeConflicting, if_neg hlen]
    exact rcLoop_pairwise _ [] List.Pairwise.nil

theorem removeConflicting_sorted (l : List EntityWithScore) :
    List.Sorted relRC (removeConflicting l) ∨ l.length ≤ 1 := by
  by_cases hlen : l.length ≤ 1
  · exact Or.inr hlen
  · left
    rw [removeConflicting, if_neg hlen]
    obtain ⟨s, hs, hsub⟩ := rcLoop_append (List.insertionSort relRC l) []
    rw [hs, List.nil_append]
    exact List.Pairwise.sublist hsub (List.sorted_insertionSort relRC l)

theorem removeConflicting_subset (l : List EntityWithScore) :
    ∀ e ∈ removeConflicting l, e ∈ l := by
  by_cases hlen : l.length ≤ 1
  · rw [removeConflicting, if_pos hlen]; exact fun e he => he
  · rw [removeConflicting, if_neg hlen]
    obtain ⟨s, hs, hsub⟩ := rcLoop_append (List.insertionSort relRC l) []
    rw [hs, List.nil_append]
    intro e he
    exact (List.perm_insertionSort relRC l).subset (hsub.subset he)

/-! ## Helper lemmas: sorted permutations and resolveConflicts -/

theorem sorted_of_len_le_one {α : Type} {r : α → α → Prop} (l : List α)
    (h : l.length ≤ 1) : List.Sorted r l := by
  rcases l with _ | ⟨a, _ | ⟨b, t⟩⟩
  · exact List.Pairwise.nil
  · exact List.sorted_singleton a
  · simp at h

theorem pairwise_of_len_le_one {α : Type} {r : α → α → Prop} (l : List α)
    (h : l.length ≤ 1) : l.Pairwise r :=
  sorted_of_len_le_one l h

theorem sorted_perm_eq {α : Type} {r : α → α → Prop} :
    ∀ (l₁ l₂ : List α), l₁.Perm l₂ → List.Sorted r l₁ → List.Sorted r l₂ →
      (∀ a ∈ l₁, ∀ b ∈ l₁, r a b → r b a → a = b) → l₁ = l₂ := by
  intro l₁
  induction l₁ with
  | nil =>
    intro l₂ hp _ _ _
    exact (hp.symm.eq_nil).symm
  | cons a t₁ ih =>
    intro l₂ hp hs₁ hs₂ hanti
    cases l₂ with
    | nil => exact absurd hp.eq_nil (by simp)
    | cons b t₂ =>
      have hab : a = b := by
        have ha2 : a ∈ b :: t₂ := hp.subset (List.mem_cons_self _ _)
        have hb1 : b ∈ a :: t₁ := hp.symm.subset (List.mem_cons_self _ _)
        rcases List.mem_cons.mp ha2 with h | ha2'
        · exact h
        · rcases List.mem_cons.mp hb1 with h | hb1'
          · exact h.symm
          · exact hanti a (List.mem_cons_self _ _) b (List.mem_cons_of_mem _ hb1')
              (List.rel_of_sorted_cons hs₁ b hb1')
              (List.rel_of_sorted_cons hs₂ a ha2')
      subst hab
      have ht := ih t₂ hp.cons_inv hs₁.of_cons hs₂.of_cons
        (fun x hx y hy => hanti x (List.mem_cons_of_mem _ hx)
          y (List.mem_cons_of_mem _ hy))
      rw [ht]

theorem relRC_start_le (a b : EntityWithScore) (h : relRC a b) :
    a.start ≤ b.start := by
  rcases h with h | ⟨h, _⟩
  · exact le_of_lt h
  · exact le_of_eq h

theorem relRC_both (a b : EntityWithScore) (hab : relRC a b) (hba : relRC b a) :
    a.start = b.start ∧ a.«end» = b.«end» := by
  rcases hab with h1 | ⟨e1, h1⟩
  · rcases hba with h2 | ⟨e2, _⟩
    · exact absurd (h1.trans h2) (lt_irrefl _)
    · exact absurd (e2 ▸ h1) (lt_irrefl _)
  · rcases hba with h2 | ⟨e2, h2⟩
    · exact absurd (e1 ▸ h2) (lt_irrefl _)
    · refine ⟨e1, ?_⟩
      rcases h1 with h1 | ⟨f1, _⟩
      · rcases h2 with h2 | ⟨f2, _⟩
        · exact absurd (h1.trans h2) (lt_irrefl _)
        · exact absurd (f2 ▸ h1) (lt_irrefl _)
      · exact f1

theorem groupsOf_subset (l : List EntityWithScore) :
    ∀ g ∈ groupsOf l, ∀ e ∈ g, e ∈ l := by
  intro g hg e he
  rcases List.mem_map.mp hg with ⟨ty, _, rfl⟩
  exact List.mem_of_mem_filter he

theorem afterMergePhase_valid (l : List EntityWithScore)
    (hv : ∀ e ∈ l, e.start < e.«end») :
    ∀ e ∈ afterMergePhase l, e.start < e.«end» := by
  intro e he
  rcases List.mem_flatten.mp he with ⟨m, hm, hem⟩
  rcases List.mem_map.mp hm with ⟨g, hg, rfl⟩
  exact mergeOverlapping_valid g
    (fun x hx => hv x (groupsOf_subset l g hg x hx)) e hem

theorem afterMergePhase_pairwiseRT (l : List EntityWithScore)
    (hv : ∀ e ∈ l, e.start < e.«end») :
    (afterMergePhase l).Pairwise
      (fun a b => a.entity_type = b.entity_type →
        a.«end» ≤ b.start ∨ b.«end» ≤ a.start) := by
  rw [afterMergePhase, List.pairwise_flatten]
  constructor
  · intro m hm
    rcases List.mem_map.mp hm with ⟨g, hg, rfl⟩
    have := mergeOverlapping_sep g
      (fun x hx => hv x (groupsOf_subset l g hg x hx))
    exact this.imp (fun h _ => Or.inl h)
  · rw [groupsOf, List.map_map, List.pairwise_map]
    have hnd := dedupFirst_nodup (l.map (·.entity_type))
    refine hnd.imp_of_mem ?_
    intro ty1 ty2 h1 h2 hne x hx y hy hxy
    exfalso
    apply hne
    have hx' : x.entity_type = ty1 := by
      refine mergeOverlapping_type _ ty1 ?_ x hx
      intro e he
      simpa using List.of_mem_filter he
    have hy' : y.entity_type = ty2 := by
      refine mergeOverlapping_type _ ty2 ?_ y hy
      intro e he
      simpa using List.of_mem_filter he
    rw [← hx', ← hy', hxy]

theorem removeConflicting_preserves_pairwise
    {R : EntityWithScore → EntityWithScore → Prop}
    (hsym : ∀ {x y : EntityWithScore}, R x y → R y x)
    (l : List EntityWithScore) (h : l.Pairwise R) :
    (removeConflicting l).Pairwise R := by
  by_cases hlen : l.length ≤ 1
  · rw [removeConflicting, if_pos hlen]; exact h
  · rw [removeConflicting, if_neg hlen]
    obtain ⟨s, hs, hsub⟩ := rcLoop_append (List.insertionSort relRC l) []
    rw [hs, List.nil_append]
    refine List.Pairwise.sublist hsub ?_
    exact ((List.perm_insertionSort relRC l).pairwise_iff hsym).mpr h

theorem resolveConflicts_pairwiseRT (l : List EntityWithScore)
    (hv : ∀ e ∈ l, e.start < e.«end») :
    (resolveConflicts l).Pairwise
      (fun a b => a.entity_type = b.entity_type →
        a.«end» ≤ b.start ∨ b.«end» ≤ a.start) := by
  by_cases hlen : l.length ≤ 1
  · rw [resolveConflicts, if_pos hlen]
    exact pairwise_of_len_le_one l hlen
  · rw [resolveConflicts, if_neg hlen]
    refine removeConflicting_preserves_pairwise ?_ _
      (afterMergePhase_pairwiseRT l hv)
    intro x y hxy hty
    exact (hxy hty.symm).symm

theorem resolveConflicts_pairwiseRc (l : List EntityWithScore) :
    (resolveConflicts l).Pairwise
      (fun a b => sameIndices b a = false ∧ isContainedIn b a = false) := by
  by_cases hlen : l.length ≤ 1
  · rw [resolveConflicts, if_pos hlen]
    exact pairwise_of_len_le_one l hlen
  · rw [resolveConflicts, if_neg hlen]
    exact removeConflicting_pairwise _

theorem resolveConflicts_sorted (l : List EntityWithScore) :
    List.Sorted relRC (resolveConflicts l) := by
  by_cases hlen : l.length ≤ 1
  · rw [resolveConflicts, if_pos hlen]
    exact sorted_of_len_le_one l hlen
  · rw [resolveConflicts, if_neg hlen]
    rcases removeConflicting_sorted (afterMergePhase l) with h | h
    · exact h
    · rw [removeConflicting, if_pos h]
      exact sorted_of_len_le_one _ h

theorem resolveConflicts_valid (l : List EntityWithScore)
    (hv : ∀ e ∈ l, e.start < e.«end») :
    ∀ e ∈ resolveConflicts l, e.start < e.«end» := by
  by_cases hlen : l.length ≤ 1
  · rw [resolveConflicts, if_pos hlen]; exact hv
  · rw [resolveConflicts, if_neg hlen]
    intro e he
    exact afterMergePhase_valid l hv e (removeConflicting_subset _ e he)

/-! ## Idempotence machinery -/

theorem resolveConflicts_fixed (l : List EntityWithScore)
    (hv : ∀ e ∈ l, e.start < e.«end») :
    resolveConflicts (resolveConflicts l) = resolveConflicts l := by
  have hRT := resolveConflicts_pairwiseRT l hv
  have hRc := resolveConflicts_pairwiseRc l
  have hSort := resolveConflicts_sorted l
  have hval := resolveConflicts_valid l hv
  by_cases hlen : (resolveConflicts l).length ≤ 1
  · rw [resolveConflicts, if_pos hlen]
  · have hgroups : ∀ g ∈ groupsOf (resolveConflicts l),
        mergeOverlapping mergeSameType g = g := by
      intro g hg
      have hsubl : g.Sublist (resolveConflicts l) := by
        rcases List.mem_map.mp hg with ⟨ty, _, rfl⟩
        exact List.filter_sublist _
      have hty : ∃ ty, ∀ e ∈ g, e.entity_type = ty :=
        groupsOf_types _ g hg
      have hsortedRC : List.Sorted relRC g :=
        List.Pairwise.sublist hsubl hSort
      have hsortedS : List.Sorted relStart g :=
        hsortedRC.imp (fun h => relRC_start_le _ _ h)
      have hgRT : g.Pairwise
          (fun a b => a.entity_type = b.entity_type →
            a.«end» ≤ b.start ∨ b.«end» ≤ a.start) :=
        List.Pairwise.sublist hsubl hRT
      have hsep : g.Pairwise (fun a b => a.«end» ≤ b.start) := by
        rcases hty with ⟨ty, hty⟩
        refine (hgRT.and hsortedS).imp_of_mem ?_
        intro a b ha hb hab
        rcases hab.1 ((hty a ha).trans (hty b hb).symm) with h | h
        · exact h
        · exfalso
          have hbv : b.start < b.«end» := hval b (hsubl.subset hb)
          have hba : a.start ≤ b.start := hab.2
          omega
      exact mergeOverlapping_id g hsortedS hsep
    have hmap : (groupsOf (resolveConflicts l)).map
        (mergeOverlapping mergeSameType) = groupsOf (resolveConflicts l) := by
      rw [List.map_congr_left hgroups]
      exact List.map_id _
    have hperm : (afterMergePhase (resolveConflicts l)).Perm
        (resolveConflicts l) := by
      rw [afterMergePhase, hmap]
      exact groupsOf_flatten_perm _
    rw [resolveConflicts, if_neg hlen]
    have hlen2 : ¬(afterMergePhase (resolveConflicts l)).length ≤ 1 := by
      rw [hperm.length_eq]
      exact hlen
    rw [removeConflicting, if_neg hlen2]
    have hsorteq : List.insertionSort relRC
        (afterMergePhase (resolveConflicts l)) = resolveConflicts l := by
      have hp2 : (List.insertionSort relRC
          (afterMergePhase (resolveConflicts l))).Perm (resolveConflicts l) :=
        (List.perm_insertionSort relRC _).trans hperm
      have hSymP : (resolveConflicts l).Pairwise
          (fun a b => ¬(a.start = b.start ∧ a.«end» = b.«end»)) := by
        refine hRc.imp ?_
        intro a b hab habs
        have h1 := hab.1
        rw [sameIndices] at h1
        simp at h1
        exact absurd (h1 habs.1.symm) (by simp [habs.2])
      apply sorted_perm_eq _ _ hp2 (List.sorted_insertionSort relRC _) hSort
      intro a ha b hb hab hba
      by_contra hne
      have ha' : a ∈ resolveConflicts l := hp2.subset ha
      have hb' : b ∈ resolveConflicts l := hp2.subset hb
      have hS : Symmetric
          (fun a b : EntityWithScore =>
            ¬(a.start = b.start ∧ a.«end» = b.«end»)) := by
        intro x y hxy hxs
        exact hxy ⟨hxs.1.symm, hxs.2.symm⟩
      have := hSymP.forall hS ha' hb' hne
      exact this (relRC_both a b hab hba)
    rw [hsorteq]
    exact rcLoop_id _ [] (by rw [List.nil_append]; exact hRc)

/-! ## Refinement lemmas for the scoreless resolver -/

theorem orderedInsert_congr {α : Type} {r s : α → α → Prop}
    [DecidableRel r] [DecidableRel s] (h : ∀ a b, r a b ↔ s a b) (a : α) :
    ∀ l : List α, l.orderedInsert r a = l.orderedInsert s a := by
  intro l
  induction l with
  | nil => rfl
  | cons b t ih =>
    rw [List.orderedInsert, List.orderedInsert]
    by_cases hr : r a b
    · rw [if_pos hr, if_pos ((h a b).mp hr)]
    · rw [if_neg hr, if_neg (fun hs => hr ((h a b).mpr hs)), ih]

theorem insertionSort_congr {α : Type} {r s : α → α → Prop}
    [DecidableRel r] [DecidableRel s] (h : ∀ a b, r a b ↔ s a b) :
    ∀ l : List α, List.insertionSort r l = List.insertionSort s l := by
  intro l
  induction l with
  | nil => rfl
  | cons b t ih =>
    rw [List.insertionSort, List.insertionSort, ih, orderedInsert_congr h]

theorem simpleScan_eq_greedy :
    ∀ (cs : List Interval) (last : Interval),
      simpleScan last cs = last :: greedyKeep last.«end» cs := by
  intro cs
  induction cs with
  | nil => intro last; rw [simpleScan, greedyKeep]
  | cons c cs ih =>
    intro last
    rw [simpleScan, greedyKeep]
    by_cases hge : last.«end» ≤ c.start
    · rw [if_pos hge, if_pos hge, ih]
    · rw [if_neg hge, if_neg hge, ih]

theorem resolveConflictsSimple_eq_spec (l : List Interval) :
    resolveConflictsSimple l = simpleSpecModel l := by
  have hsorteq : List.insertionSort relSimpleSpec l =
      List.insertionSort relSimple l :=
    insertionSort_congr (fun a b => by rw [relSimple, relSimpleSpec]) l
  rw [simpleSpecModel, hsorteq]
  by_cases hlen : l.length ≤ 1
  · rw [resolveConflictsSimple, if_pos hlen]
    rcases l with _ | ⟨a, _ | ⟨b, t⟩⟩
    · rfl
    · rfl
    · simp at hlen
  · rw [resolveConflictsSimple, if_neg hlen]
    cases hs : List.insertionSort relSimple l with
    | nil => rfl
    | cons x xs => exact simpleScan_eq_greedy xs x

/-! ## Claim theorems for the conflict resolver -/

/-- C2 counterexample: on the entity list `[{0,5,0.9,A}, {3,8,0.8,B}]`
(every span satisfying `start < end`), `resolveConflicts` keeps both
spans, and they overlap (`a.start < b.end ∧ b.start < a.end`), so the
output is not pairwise non-overlapping as the claim states. -/
theorem C2_counterexample :
    (∀ e ∈ [(⟨0, 5, mkRat 9 10, "A"⟩ : EntityWithScore),
        ⟨3, 8, mkRat 8 10, "B"⟩], e.start < e.«end») ∧
    ∃ a ∈ resolveConflicts
        [(⟨0, 5, mkRat 9 10, "A"⟩ : EntityWithScore),
         ⟨3, 8, mkRat 8 10, "B"⟩],
      ∃ b ∈ resolveConflicts
        [(⟨0, 5, mkRat 9 10, "A"⟩ : EntityWithScore),
         ⟨3, 8, mkRat 8 10, "B"⟩],
      a ≠ b ∧ a.start < b.«end» ∧ b.start < a.«end» := by
  decide

/-- C2 amended: the output of `resolveConflicts` is pairwise
non-overlapping among spans of the same entity type (for inputs
satisfying the `start < end` invariant); overlapping spans of different
types may both survive. -/
theorem C2_same_type_non_overlap (l : List EntityWithScore)
    (hv : ∀ e ∈ l, e.start < e.«end») :
    (resolveConflicts l).Pairwise
      (fun a b => a.entity_type = b.entity_type → overlaps a b = false) := by
  refine (resolveConflicts_pairwiseRT l hv).imp ?_
  intro a b h hty
  rcases h hty with h | h
  · have hn : ¬(b.start < a.«end») := not_lt.mpr h
    simp [overlaps, hn]
  · have hn : ¬(a.start < b.«end») := not_lt.mpr h
    simp [overlaps, hn]

/-- Witness for C2's amended theorem at a concrete input. -/
theorem C2_same_type_non_overlap_witness :
    (∀ e ∈ [(⟨0, 5, mkRat 9 10, "A"⟩ : EntityWithScore),
        ⟨3, 8, mkRat 8 10, "B"⟩, ⟨4, 9, mkRat 7 10, "A"⟩],
      e.start < e.«end») ∧
    (resolveConflicts
        [(⟨0, 5, mkRat 9 10, "A"⟩ : EntityWithScore),
         ⟨3, 8, mkRat 8 10, "B"⟩, ⟨4, 9, mkRat 7 10, "A"⟩]).Pairwise
      (fun a b => a.entity_type = b.entity_type → overlaps a b = false) :=
  ⟨by decide, C2_same_type_non_overlap _ (by decide)⟩

/-- C3: the code keeps the span `[0,3]` even though it is strictly
contained in the kept span `[0,5]` — `removeConflicting` sorts by end
ascending and only tests whether the candidate is contained in an
already-kept span, never the converse, contradicting its own doc comment
("Remove entities that are contained in another") and the claim. -/
theorem C3_containment_bug_eval :
    resolveConflicts [(⟨0, 3, mkRat 9 10, "A"⟩ : EntityWithScore),
        ⟨0, 5, mkRat 8 10, "B"⟩] =
      [⟨0, 3, mkRat 9 10, "A"⟩, ⟨0, 5, mkRat 8 10, "B"⟩] ∧
    ∃ e ∈ resolveConflicts [(⟨0, 3, mkRat 9 10, "A"⟩ : EntityWithScore),
        ⟨0, 5, mkRat 8 10, "B"⟩],
      ∃ k ∈ resolveConflicts [(⟨0, 3, mkRat 9 10, "A"⟩ : EntityWithScore),
        ⟨0, 5, mkRat 8 10, "B"⟩],
      e ≠ k ∧ k.start ≤ e.start ∧ e.«end» ≤ k.«end» := by
  decide

/-- C6: `resolveConflictsSimple` coincides with the specification's
description — sort by `(start asc, length desc)`, then greedily keep a
span iff its start is at least the end of the last kept span (a touching
span is kept, any positive overlap drops the later span) — and on
`[{0,10},{5,15}]` it returns exactly `[{0,10}]`. -/
theorem C6_simple_resolver_spec :
    (∀ l : List Interval, resolveConflictsSimple l = simpleSpecModel l) ∧
    resolveConflictsSimple [⟨0, 10⟩, ⟨5, 15⟩] = [⟨0, 10⟩] ∧
    resolveConflictsSimple [⟨0, 10⟩, ⟨10, 15⟩] = [⟨0, 10⟩, ⟨10, 15⟩] :=
  ⟨resolveConflictsSimple_eq_spec, by decide, by decide⟩

/-- C7: `resolveConflicts` is idempotent on entity lists satisfying the
`start < end` invariant: an already-resolved list is a fixed point (the
second application returns the very same list). -/
theorem C7_resolve_idempotent (l : List EntityWithScore)
    (hv : ∀ e ∈ l, e.start < e.«end») :
    resolveConflicts (resolveConflicts l) = resolveConflicts l :=
  resolveConflicts_fixed l hv

/-- Witness for C7 at a concrete input with overlapping, duplicate and
contained spans of several types. -/
theorem C7_resolve_idempotent_witness :
    (∀ e ∈ [(⟨0, 5, mkRat 9 10, "A"⟩ : EntityWithScore),
        ⟨3, 8, mkRat 95 100, "A"⟩, ⟨0, 8, mkRat 8 10, "B"⟩,
        ⟨2, 4, mkRat 99 100, "C"⟩], e.start < e.«end») ∧
    resolveConflicts (resolveConflicts
        [(⟨0, 5, mkRat 9 10, "A"⟩ : EntityWithScore),
         ⟨3, 8, mkRat 95 100, "A"⟩, ⟨0, 8, mkRat 8 10, "B"⟩,
         ⟨2, 4, mkRat 99 100, "C"⟩]) =
      resolveConflicts
        [(⟨0, 5, mkRat 9 10, "A"⟩ : EntityWithScore),
         ⟨3, 8, mkRat 95 100, "A"⟩, ⟨0, 8, mkRat 8 10, "B"⟩,
         ⟨2, 4, mkRat 99 100, "C"⟩] :=
  ⟨by decide, C7_resolve_idempotent _ (by decide)⟩

/-! ## Claim theorems for the routing decision -/

/-- C4: precedence of `decideRoute` — (1) detected secrets with the
`route_local` action route to the local provider with the secret types
from the matches in order; (2) otherwise detected PII routes to
`routing.on_pii_detected` with the deduplicated (first-seen order) entity
types of the new entities; (3) otherwise the default provider with reason
exactly `"No PII detected"`. -/
theorem C4_route_precedence (piiResult : PIIDetectionResult)
    (routing : RoutingConfig) (sr : Option SecretsDetectionResult)
    (sa : Option SecretsAction) :
    (secretsDetectedFlag sr = true ∧ sa = some SecretsAction.route_local →
      decideRoute piiResult routing sr sa =
        ⟨Provider.local, "Secrets detected (route_local): " ++
          String.intercalate ", " (secretTypesOf sr)⟩) ∧
    (¬(secretsDetectedFlag sr = true ∧ sa = some SecretsAction.route_local) →
      piiResult.hasPII = true →
      decideRoute piiResult routing sr sa =
        ⟨routing.on_pii_detected, "PII detected: " ++
          String.intercalate ", "
            (dedupFirst (piiResult.newEntities.map (·.entity_type)))⟩) ∧
    (¬(secretsDetectedFlag sr = true ∧ sa = some SecretsAction.route_local) →
      piiResult.hasPII = false →
      decideRoute piiResult routing sr sa =
        ⟨routing.default, "No PII detected"⟩) := by
  refine ⟨?_, ?_, ?_⟩
  · rintro ⟨h1, h2⟩
    have hc : (secretsDetectedFlag sr &&
        decide (sa = some SecretsAction.route_local)) = true := by
      rw [h1, h2]; simp
    rw [decideRoute, if_pos hc]
  · intro hn hPII
    have hc : ¬(secretsDetectedFlag sr &&
        decide (sa = some SecretsAction.route_local)) = true := by
      intro hcc
      simp at hcc
      exact hn ⟨hcc.1, hcc.2⟩
    rw [decideRoute, if_neg hc, if_pos hPII]
  · intro hn hPII
    have hc : ¬(secretsDetectedFlag sr &&
        decide (sa = some SecretsAction.route_local)) = true := by
      intro hcc
      simp at hcc
      exact hn ⟨hcc.1, hcc.2⟩
    rw [decideRoute, if_neg hc, if_neg (by rw [hPII]; exact Bool.false_ne_true)]

/-- Witness for C4 at concrete inputs exercising all three branches. -/
theorem C4_route_precedence_witness :
    decideRoute ⟨true, [⟨0, 10, mkRat 9 10, "PERSON"⟩], [], "en", false, 50⟩
        ⟨Provider.upstream, Provider.upstream⟩
        (some ⟨true, [⟨"API_KEY_AWS", 1⟩], []⟩)
        (some SecretsAction.route_local) =
      ⟨Provider.local, "Secrets detected (route_local): API_KEY_AWS"⟩ ∧
    decideRoute ⟨true, [⟨0, 10, mkRat 9 10, "PERSON"⟩,
          ⟨0, 10, mkRat 9 10, "PERSON"⟩, ⟨2, 4, mkRat 9 10, "EMAIL_ADDRESS"⟩],
          [], "en", false, 50⟩
        ⟨Provider.upstream, Provider.local⟩ none none =
      ⟨Provider.local, "PII detected: PERSON, EMAIL_ADDRESS"⟩ ∧
    decideRoute ⟨false, [], [], "en", false, 50⟩
        ⟨Provider.upstream, Provider.local⟩
        (some ⟨true, [⟨"JWT_TOKEN", 1⟩], []⟩) (some SecretsAction.block) =
      ⟨Provider.upstream, "No PII detected"⟩ := by
  refine ⟨?_, ?_, ?_⟩
  · exact ((C4_route_precedence _ _ _ _).1 (by exact ⟨rfl, rfl⟩)).trans (by decide)
  · exact ((C4_route_precedence _ _ _ _).2.1 (by decide) rfl).trans (by decide)
  · exact ((C4_route_precedence _ _ _ _).2.2 (by decide) rfl).trans (by decide)

/-- C5: with `secretsAction` equal to `block` or `redact`, `decideRoute`
returns exactly the same decision as when no secrets result is supplied
at all — those actions never influence routing. -/
theorem C5_block_redact_ignored (piiResult : PIIDetectionResult)
    (routing : RoutingConfig) (sr : SecretsDetectionResult) :
    decideRoute piiResult routing (some sr) (some SecretsAction.block) =
      decideRoute piiResult routing none none ∧
    decideRoute piiResult routing (some sr) (some SecretsAction.redact) =
      decideRoute piiResult routing none none := by
  constructor
  · simp [decideRoute, secretsDetectedFlag]
  · simp [decideRoute, secretsDetectedFlag]

/-! ## Helper lemmas: the stream transformer -/

theorem splitNL_append_cons :
    ∀ (a b : Str), ('\n') ∉ a → splitNL (a ++ '\n' :: b) = a :: splitNL b := by
  intro a
  induction a with
  | nil =>
    intro b _
    rw [List.nil_append, splitNL, if_pos rfl]
  | cons c a ih =>
    intro b hnl
    have hc : ¬(c = '\n') := fun h => hnl (h ▸ List.mem_cons_self _ _)
    rw [List.cons_append, splitNL, if_neg hc,
      ih b (fun h => hnl (List.mem_cons_of_mem _ h))]

theorem processLine_not_data {Env : Type} (codec : Codec Env)
    (pii sec : Option CtxOps) (st : BufSt) (line : Str)
    (hpre : dataPrefix.isPrefixOf line = false) :
    processLine codec pii sec st line =
      (st, if line.any (fun c => !c.isWhitespace) then [line ++ nl1] else []) := by
  rw [processLine, if_neg (by rw [hpre]; exact Bool.false_ne_true)]
  by_cases h : line.any (fun c => !c.isWhitespace) = true
  · rw [if_pos h, if_pos h]
  · rw [if_neg h, if_neg h]

theorem processLine_done {Env : Type} (codec : Codec Env)
    (pii sec : Option CtxOps) (st : BufSt) (line : Str)
    (hpre : dataPrefix.isPrefixOf line = true)
    (hdone : line.drop 6 = doneData) :
    processLine codec pii sec st line =
      (st, [dataPrefix ++ doneData ++ nl2]) := by
  simp only [processLine, hpre, if_true, hdone, if_pos]

theorem processLine_malformed {Env : Type} (codec : Codec Env)
    (pii sec : Option CtxOps) (st : BufSt) (line : Str)
    (hpre : dataPrefix.isPrefixOf line = true)
    (hdone : line.drop 6 ≠ doneData)
    (hparse : codec.parse (line.drop 6) = none) :
    processLine codec pii sec st line = (st, [line ++ nl1]) := by
  simp only [processLine, hpre, if_true, hdone, if_false, hparse]

theorem processLine_withheld {Env : Type} (codec : Codec Env)
    (pOps sOps : CtxOps) (st : BufSt) (line : Str) (env : Env) (b2 : Str)
    (hpre : dataPrefix.isPrefixOf line = true)
    (hdone : line.drop 6 ≠ doneData)
    (hparse : codec.parse (line.drop 6) = some env)
    (hcon : (codec.content env).isEmpty = false)
    (hstep : pOps.step st.piiBuffer (codec.content env) = ([], b2)) :
    processLine codec (some pOps) (some sOps) st line =
      (⟨b2, st.secretsBuffer⟩, []) := by
  simp only [processLine, hpre, if_true, hdone, if_false, hparse, hcon,
    Bool.false_eq_true, hstep, List.isEmpty_nil, if_true]

/-! ## Claim theorems for pass-through and error handling -/

/-- C8 counterexample: the chunk consisting of a single blank line is not
emitted at all (the `else if (line.trim())` guard drops blank lines), so
lines that do not begin with the data prefix are not always forwarded
unchanged. -/
theorem C8_counterexample :
    (runStream miniCodec none none ["\n".toList] UpstreamEnd.eof).events = [] ∧
    "\n".toList ≠ ([] : Str) := by
  constructor
  · decide
  · decide

/-- C8 amended: a non-blank line that does not begin with `"data: "` is
re-emitted followed by a single `"\n"`; a blank (whitespace-only) line is
dropped; the `[DONE]` sentinel line is re-emitted as the fixed bytes
`"data: [DONE]\n\n"`; a data line whose payload fails to parse is
re-emitted as the line followed by a single `"\n"` — all independently of
the codec and of the configured contexts. -/
theorem C8_passthrough {Env : Type} (codec : Codec Env)
    (pii sec : Option CtxOps) (st : BufSt) (line : Str) :
    (dataPrefix.isPrefixOf line = false →
      processLine codec pii sec st line =
        (st, if line.any (fun c => !c.isWhitespace) then [line ++ nl1]
          else [])) ∧
    (dataPrefix.isPrefixOf line = true → line.drop 6 = doneData →
      processLine codec pii sec st line =
        (st, [dataPrefix ++ doneData ++ nl2])) ∧
    (dataPrefix.isPrefixOf line = true → line.drop 6 ≠ doneData →
      codec.parse (line.drop 6) = none →
      processLine codec pii sec st line = (st, [line ++ nl1])) :=
  ⟨fun hpre => processLine_not_data codec pii sec st line hpre,
   fun hpre hdone => processLine_done codec pii sec st line hpre hdone,
   fun hpre hdone hparse =>
     processLine_malformed codec pii sec st line hpre hdone hparse⟩

/-- Witness for C8's amended theorem: a comment line, a blank line, the
`[DONE]` sentinel and a malformed data line, at the concrete codec. -/
theorem C8_passthrough_witness :
    processLine miniCodec none none ⟨[], []⟩ ": keep-alive".toList =
      (⟨[], []⟩, [": keep-alive\n".toList]) ∧
    processLine miniCodec none none ⟨[], []⟩ "".toList = (⟨[], []⟩, []) ∧
    processLine miniCodec none none ⟨[], []⟩ "data: [DONE]".toList =
      (⟨[], []⟩, ["data: [DONE]\n\n".toList]) ∧
    processLine miniCodec none none ⟨[], []⟩ "data: notjson".toList =
      (⟨[], []⟩, ["data: notjson\n".toList]) := by
  refine ⟨?_, ?_, ?_, ?_⟩
  · exact ((C8_passthrough miniCodec none none ⟨[], []⟩ _).1
      (by decide)).trans (by decide)
  · exact ((C8_passthrough miniCodec none none ⟨[], []⟩ _).1
      (by decide)).trans (by decide)
  · exact ((C8_passthrough miniCodec none none ⟨[], []⟩ _).2.1
      (by decide) (by decide)).trans (by decide)
  · exact ((C8_passthrough miniCodec none none ⟨[], []⟩ _).2.2
      (by decide) (by decide) (by decide)).trans (by decide)

/-- C9: a data line whose payload fails to parse is forwarded (followed
by a single newline) and processing continues on the remaining lines with
unchanged buffers — it never aborts the stream, which still closes
normally at end of input; an upstream read error, by contrast, is
terminal: the output stream is errored, the events are exactly those
produced from the delivered chunks, and no flush event is emitted (the
buffered partial content is discarded). -/
theorem C9_malformed_recovered_error_fatal {Env : Type} (codec : Codec Env)
    (pii sec : Option CtxOps) :
    (∀ chunks, (runStream codec pii sec chunks UpstreamEnd.eof).terminal =
      Terminal.closed) ∧
    (∀ chunks, runStream codec pii sec chunks UpstreamEnd.fail =
      ⟨(processChunks codec pii sec ⟨[], []⟩ chunks).2, Terminal.errored⟩) ∧
    (∀ (st : BufSt) (line rest : Str), ('\n') ∉ line →
      dataPrefix.isPrefixOf line = true → line.drop 6 ≠ doneData →
      codec.parse (line.drop 6) = none →
      processChunk codec pii sec st (line ++ '\n' :: rest) =
        ((processChunk codec pii sec st rest).1,
          (line ++ nl1) :: (processChunk codec pii sec st rest).2)) := by
  refine ⟨fun chunks => rfl, fun chunks => rfl, ?_⟩
  intro st line rest hnl hpre hdone hparse
  rw [processChunk, splitNL_append_cons line rest hnl, processLines,
    processLine_malformed codec pii sec st line hpre hdone hparse]
  rfl

/-- Witness for C9: one malformed data chunk; on read failure the events
are exactly the forwarded line and the stream is errored, while at end of
stream it closes; the line-level continuation fact at a concrete line. -/
theorem C9_witness :
    (runStream miniCodec none none ["data: oops\n".toList]
        UpstreamEnd.eof).terminal = Terminal.closed ∧
    runStream miniCodec none none ["data: oops\n".toList] UpstreamEnd.fail =
      ⟨["data: oops\n".toList], Terminal.errored⟩ ∧
    processChunk miniCodec none none ⟨[], []⟩
        ("data: oops".toList ++ '\n' :: "x".toList) =
      (⟨[], []⟩, ["data: oops\n".toList, "x\n".toList]) := by
  refine ⟨?_, ?_, ?_⟩
  · exact (C9_malformed_recovered_error_fatal miniCodec none none).1 _
  · exact ((C9_malformed_recovered_error_fatal miniCodec none none).2.1
      _).trans (by decide)
  · exact ((C9_malformed_recovered_error_fatal miniCodec none none).2.2
      ⟨[], []⟩ "data: oops".toList "x".toList (by decide) (by decide)
      (by decide) (by decide)).trans (by decide)

/-- C10: when the PII unmask step withholds the entire content of a data
line (returns empty output), the secrets step is not invoked: the secrets
buffer is left unchanged, nothing is emitted for that line, and the PII
buffer still advances to the returned remaining buffer. -/
theorem C10_withheld_content_skips_secrets {Env : Type} (codec : Codec Env)
    (pOps sOps : CtxOps) (st : BufSt) (line : Str) (env : Env) (b2 : Str)
    (hpre : dataPrefix.isPrefixOf line = true)
    (hdone : line.drop 6 ≠ doneData)
    (hparse : codec.parse (line.drop 6) = some env)
    (hcon : (codec.content env).isEmpty = false)
    (hstep : pOps.step st.piiBuffer (codec.content env) = ([], b2)) :
    processLine codec (some pOps) (some sOps) st line =
      (⟨b2, st.secretsBuffer⟩, []) :=
  processLine_withheld codec pOps sOps st line env b2 hpre hdone hparse
    hcon hstep

/-- Witness for C10: content `"[["` is entirely a possible token prefix,
so the modelled PII step withholds it all; the secrets buffer (primed
with `"s"` to make preservation visible) is untouched and nothing is
emitted. -/
theorem C10_witness :
    processLine miniCodec
        (some (piiOps [("[[0]]".toList, "Bob".toList)]))
        (some (piiOps [("((0))".toList, "Eve".toList)]))
        ⟨[], "s".toList⟩ ("data: ".toList ++ wrapEnv "[[".toList) =
      (⟨"[[".toList, "s".toList⟩, []) :=
  C10_withheld_content_skips_secrets miniCodec
    (piiOps [("[[0]]".toList, "Bob".toList)])
    (piiOps [("((0))".toList, "Eve".toList)])
    ⟨[], "s".toList⟩ _ "[[".toList "[[".toList
    (by decide) (by decide) (by decide) (by decide) (by decide)

/-! ## Helper lemmas: the modelled unmasking scan -/

theorem findTok_some (ctx : MaskCtx) (s t v : Str)
    (h : findTok ctx s = some (t, v)) :
    t ≠ [] ∧ t <+: s ∧ (t, v) ∈ ctx := by
  have hp := List.find?_some h
  have hm := List.mem_of_find?_eq_some h
  simp only [Bool.and_eq_true, Bool.not_eq_true'] at hp
  exact ⟨fun he => by simp [he] at hp,
    List.isPrefixOf_iff_prefix.mp hp.2, hm⟩

theorem find?_congr {α : Type} (p q : α → Bool) :
    ∀ l : List α, (∀ x ∈ l, p x = q x) → l.find? p = l.find? q := by
  intro l
  induction l with
  | nil => intro _; rfl
  | cons a l ih =>
    intro h
    by_cases hq : q a = true
    · rw [List.find?_cons_of_pos _ (by rw [h a (List.mem_cons_self _ _)]; exact hq),
        List.find?_cons_of_pos _ hq]
    · have hq' : q a = false := by
        cases hqq : q a
        · rfl
        · exact absurd hqq hq
      rw [List.find?_cons_of_neg _ (by rw [h a (List.mem_cons_self _ _), hq']; simp),
        List.find?_cons_of_neg _ (by rw [hq']; simp),
        ih (fun x hx => h x (List.mem_cons_of_mem _ hx))]

theorem scanGo_fuel (ctx : MaskCtx) :
    ∀ (n m : Nat) (s : Str), s.length ≤ n → s.length ≤ m →
      scanGo ctx n s = scanGo ctx m s := by
  intro n
  induction n with
  | zero =>
    intro m s hn _
    have hs : s = [] := List.eq_nil_of_length_eq_zero (Nat.le_zero.mp hn)
    subst hs
    cases m with
    | zero => rfl
    | succ m => rfl
  | succ n ih =>
    intro m s hn hm
    cases s with
    | nil =>
      cases m with
      | zero => rfl
      | succ m => rfl
    | cons c cs =>
      cases m with
      | zero => simp at hm
      | succ m =>
        simp only [scanGo]
        cases hf : findTok ctx (c :: cs) with
        | some tv =>
          obtain ⟨t, v⟩ := tv
          obtain ⟨hne, hpre, _⟩ := findTok_some ctx (c :: cs) t v hf
          have htlen : 1 ≤ t.length := by
            cases t with
            | nil => exact absurd rfl hne
            | cons a b => simp
          have hd : ((c :: cs).drop t.length).length ≤ n := by
            rw [List.length_drop]
            simp only [List.length_cons] at hn ⊢
            omega
          have hd2 : ((c :: cs).drop t.length).length ≤ m := by
            rw [List.length_drop]
            simp only [List.length_cons] at hm ⊢
            omega
          dsimp only
          rw [ih m ((c :: cs).drop t.length) hd hd2]
        | none =>
          by_cases hp : isPrefixTok ctx (c :: cs) = true
          · rw [if_pos hp, if_pos hp]
          · rw [if_neg hp, if_neg hp]
            have hd : cs.length ≤ n := by
              simp only [List.length_cons] at hn; omega
            have hd2 : cs.length ≤ m := by
              simp only [List.length_cons] at hm; omega
            rw [ih m cs hd hd2]

theorem scanStream_nil (ctx : MaskCtx) : scanStream ctx [] = ([], []) := rfl

theorem scanStream_found (ctx : MaskCtx) (s t v : Str)
    (h : findTok ctx s = some (t, v)) :
    scanStream ctx s =
      (v ++ (scanStream ctx (s.drop t.length)).1,
        (scanStream ctx (s.drop t.length)).2) := by
  obtain ⟨hne, hpre, _⟩ := findTok_some ctx s t v h
  cases s with
  | nil => exact absurd (List.prefix_nil.mp hpre) hne
  | cons c cs =>
    have htlen : 1 ≤ t.length := by
      cases t with
      | nil => exact absurd rfl hne
      | cons a b => simp
    have htle : t.length ≤ cs.length + 1 := by
      have := hpre.length_le
      simpa using this
    show scanGo ctx (cs.length + 1) (c :: cs) = _
    simp only [scanGo, h]
    have hd : ((c :: cs).drop t.length).length ≤ cs.length := by
      rw [List.length_drop]
      simp only [List.length_cons]
      omega
    rw [scanGo_fuel ctx cs.length ((c :: cs).drop t.length).length _ hd (le_refl _)]
    rfl

theorem scanStream_withhold (ctx : MaskCtx) (s : Str) (hs : s ≠ [])
    (hf : findTok ctx s = none) (hp : isPrefixTok ctx s = true) :
    scanStream ctx s = ([], s) := by
  cases s with
  | nil => exact absurd rfl hs
  | cons c cs =>
    show scanGo ctx (cs.length + 1) (c :: cs) = _
    simp only [scanGo, hf, hp, if_true]

theorem scanStream_emit (ctx : MaskCtx) (c : Char) (cs : Str)
    (hf : findTok ctx (c :: cs) = none)
    (hp : isPrefixTok ctx (c :: cs) = false) :
    scanStream ctx (c :: cs) =
      (c :: (scanStream ctx cs).1, (scanStream ctx cs).2) := by
  show scanGo ctx (cs.length + 1) (c :: cs) = _
  simp only [scanGo, hf, hp, Bool.false_eq_true, if_false]
  rfl

theorem findTok_append (ctx : MaskCtx) (hw : WFCtx ctx) (s r t v : Str)
    (h : findTok ctx s = some (t, v)) :
    findTok ctx (s ++ r) = some (t, v) := by
  obtain ⟨hne, hpre, hmem⟩ := findTok_some ctx s t v h
  rw [findTok] at h ⊢
  rw [find?_congr _ (fun tv => !tv.1.isEmpty && tv.1.isPrefixOf s) ctx ?_]
  · exact h
  · intro tv htv
    cases hemp : tv.1.isEmpty with
    | true => simp [hemp]
    | false =>
      simp only [hemp, Bool.not_false, Bool.true_and]
      rw [Bool.eq_iff_iff, List.isPrefixOf_iff_prefix, List.isPrefixOf_iff_prefix]
      constructor
      · intro hp2
        by_cases hlen : tv.1.length ≤ s.length
        · exact List.prefix_of_prefix_length_le hp2 (List.prefix_append s r) hlen
        · exfalso
          have hs : s <+: tv.1 :=
            List.prefix_of_prefix_length_le (List.prefix_append s r) hp2
              (le_of_not_le hlen)
          have heq : t = tv.1 := hw.2 (t, v) hmem tv htv (hpre.trans hs)
          exact hlen (heq ▸ hpre.length_le)
      · intro hp2
        exact hp2.trans (List.prefix_append s r)

theorem findTok_append_none (ctx : MaskCtx) (s r : Str)
    (hf : findTok ctx s = none) (hp : isPrefixTok ctx s = false) :
    findTok ctx (s ++ r) = none ∧ isPrefixTok ctx (s ++ r) = false := by
  rw [findTok, List.find?_eq_none] at hf
  rw [isPrefixTok, List.any_eq_false] at hp
  constructor
  · rw [findTok, List.find?_eq_none]
    intro tv htv hps
    simp only [Bool.and_eq_true, Bool.not_eq_true'] at hps
    have hpre : tv.1 <+: s ++ r := List.isPrefixOf_iff_prefix.mp hps.2
    by_cases hlen : tv.1.length ≤ s.length
    · have hts : tv.1 <+: s :=
        List.prefix_of_prefix_length_le hpre (List.prefix_append s r) hlen
      exact hf tv htv (by
        simp only [Bool.and_eq_true, Bool.not_eq_true']
        exact ⟨hps.1, List.isPrefixOf_iff_prefix.mpr hts⟩)
    · have hs : s <+: tv.1 :=
        List.prefix_of_prefix_length_le (List.prefix_append s r) hpre
          (le_of_not_le hlen)
      exact hp tv htv (List.isPrefixOf_iff_prefix.mpr hs)
  · rw [isPrefixTok, List.any_eq_false]
    intro tv htv hps
    have hpre : s ++ r <+: tv.1 := List.isPrefixOf_iff_prefix.mp hps
    exact hp tv htv
      (List.isPrefixOf_iff_prefix.mpr ((List.prefix_append s r).trans hpre))

theorem scanStream_append (ctx : MaskCtx) (hw : WFCtx ctx) :
    ∀ (s r : Str),
      scanStream ctx (s ++ r) =
        ((scanStream ctx s).1 ++
            (scanStream ctx ((scanStream ctx s).2 ++ r)).1,
          (scanStream ctx ((scanStream ctx s).2 ++ r)).2) := by
  have main : ∀ (n : Nat) (s r : Str), s.length ≤ n →
      scanStream ctx (s ++ r) =
        ((scanStream ctx s).1 ++
            (scanStream ctx ((scanStream ctx s).2 ++ r)).1,
          (scanStream ctx ((scanStream ctx s).2 ++ r)).2) := by
    intro n
    induction n with
    | zero =>
      intro s r hn
      have hs : s = [] := List.eq_nil_of_length_eq_zero (Nat.le_zero.mp hn)
      subst hs
      rw [scanStream_nil, List.nil_append, List.nil_append]
    | succ n ih =>
      intro s r hn
      cases s with
      | nil => rw [scanStream_nil, List.nil_append, List.nil_append]
      | cons c cs =>
        cases hf : findTok ctx (c :: cs) with
        | some tv =>
          obtain ⟨t, v⟩ := tv
          obtain ⟨hne, hpre, hmem⟩ := findTok_some ctx (c :: cs) t v hf
          have htlen : 1 ≤ t.length := by
            cases t with
            | nil => exact absurd rfl hne
            | cons a b => simp
          have htle : t.length ≤ (c :: cs).length := hpre.length_le
          have hf2 : findTok ctx ((c :: cs) ++ r) = some (t, v) :=
            findTok_append ctx hw (c :: cs) r t v hf
          rw [scanStream_found ctx (c :: cs) t v hf,
            scanStream_found ctx ((c :: cs) ++ r) t v hf2,
            List.drop_append_of_le_length htle]
          have hd : ((c :: cs).drop t.length).length ≤ n := by
            rw [List.length_drop]
            simp only [List.length_cons] at hn ⊢
            omega
          rw [ih ((c :: cs).drop t.length) r hd, List.append_assoc]
        | none =>
          by_cases hp : isPrefixTok ctx (c :: cs) = true
          · rw [scanStream_withhold ctx (c :: cs) (by simp) hf hp,
              List.nil_append]
          · have hp' : isPrefixTok ctx (c :: cs) = false := by
              cases hpp : isPrefixTok ctx (c :: cs)
              · rfl
              · exact absurd hpp hp
            obtain ⟨hf2, hp2⟩ := findTok_append_none ctx (c :: cs) r hf hp'
            rw [List.cons_append] at hf2 hp2
            rw [scanStream_emit ctx c cs hf hp', List.cons_append,
              scanStream_emit ctx c (cs ++ r) hf2 hp2]
            have hd : cs.length ≤ n := by
              simp only [List.length_cons] at hn; omega
            rw [ih cs r hd, List.cons_append]
  intro s r
  exact main s.length s r (le_refl _)

theorem substGo_fuel (ctx : MaskCtx) :
    ∀ (n m : Nat) (s : Str), s.length ≤ n → s.length ≤ m →
      substGo ctx n s = substGo ctx m s := by
  intro n
  induction n with
  | zero =>
    intro m s hn _
    have hs : s = [] := List.eq_nil_of_length_eq_zero (Nat.le_zero.mp hn)
    subst hs
    cases m with
    | zero => rfl
    | succ m => rfl
  | succ n ih =>
    intro m s hn hm
    cases s with
    | nil =>
      cases m with
      | zero => rfl
      | succ m => rfl
    | cons c cs =>
      cases m with
      | zero => simp at hm
      | succ m =>
        simp only [substGo]
        cases hf : findTok ctx (c :: cs) with
        | some tv =>
          obtain ⟨t, v⟩ := tv
          obtain ⟨hne, hpre, _⟩ := findTok_some ctx (c :: cs) t v hf
          have htlen : 1 ≤ t.length := by
            cases t with
            | nil => exact absurd rfl hne
            | cons a b => simp
          have hd : ((c :: cs).drop t.length).length ≤ n := by
            rw [List.length_drop]
            simp only [List.length_cons] at hn ⊢
            omega
          have hd2 : ((c :: cs).drop t.length).length ≤ m := by
            rw [List.length_drop]
            simp only [List.length_cons] at hm ⊢
            omega
          dsimp only
          rw [ih m ((c :: cs).drop t.length) hd hd2]
        | none =>
          have hd : cs.length ≤ n := by
            simp only [List.length_cons] at hn; omega
          have hd2 : cs.length ≤ m := by
            simp only [List.length_cons] at hm; omega
          rw [ih m cs hd hd2]

theorem substAll_nil (ctx : MaskCtx) : substAll ctx [] = [] := rfl

theorem substAll_found (ctx : MaskCtx) (s t v : Str)
    (h : findTok ctx s = some (t, v)) :
    substAll ctx s = v ++ substAll ctx (s.drop t.length) := by
  obtain ⟨hne, hpre, _⟩ := findTok_some ctx s t v h
  cases s with
  | nil => exact absurd (List.prefix_nil.mp hpre) hne
  | cons c cs =>
    have htlen : 1 ≤ t.length := by
      cases t with
      | nil => exact absurd rfl hne
      | cons a b => simp
    show substGo ctx (cs.length + 1) (c :: cs) = _
    simp only [substGo, h]
    have hd : ((c :: cs).drop t.length).length ≤ cs.length := by
      rw [List.length_drop]
      simp only [List.length_cons]
      omega
    rw [substGo_fuel ctx cs.length ((c :: cs).drop t.length).length _ hd (le_refl _)]
    rfl

theorem substAll_plain (ctx : MaskCtx) (c : Char) (cs : Str)
    (hf : findTok ctx (c :: cs) = none) :
    substAll ctx (c :: cs) = c :: substAll ctx cs := by
  show substGo ctx (cs.length + 1) (c :: cs) = _
  simp only [substGo, hf]
  rfl

theorem scanStream_subst (ctx : MaskCtx) :
    ∀ s : Str,
      (scanStream ctx s).1 ++ substAll ctx (scanStream ctx s).2 =
        substAll ctx s := by
  have main : ∀ (n : Nat) (s : Str), s.length ≤ n →
      (scanStream ctx s).1 ++ substAll ctx (scanStream ctx s).2 =
        substAll ctx s := by
    intro n
    induction n with
    | zero =>
      intro s hn
      have hs : s = [] := List.eq_nil_of_length_eq_zero (Nat.le_zero.mp hn)
      subst hs
      rw [scanStream_nil]
      rfl
    | succ n ih =>
      intro s hn
      cases s with
      | nil => rw [scanStream_nil]; rfl
      | cons c cs =>
        cases hf : findTok ctx (c :: cs) with
        | some tv =>
          obtain ⟨t, v⟩ := tv
          obtain ⟨hne, hpre, _⟩ := findTok_some ctx (c :: cs) t v hf
          have htlen : 1 ≤ t.length := by
            cases t with
            | nil => exact absurd rfl hne
            | cons a b => simp
          rw [scanStream_found ctx (c :: cs) t v hf,
            substAll_found ctx (c :: cs) t v hf]
          have hd : ((c :: cs).drop t.length).length ≤ n := by
            rw [List.length_drop]
            simp only [List.length_cons] at hn ⊢
            omega
          rw [List.append_assoc, ih ((c :: cs).drop t.length) hd]
        | none =>
          by_cases hp : isPrefixTok ctx (c :: cs) = true
          · rw [scanStream_withhold ctx (c :: cs) (by simp) hf hp,
              List.nil_append]
          · have hp' : isPrefixTok ctx (c :: cs) = false := by
              cases hpp : isPrefixTok ctx (c :: cs)
              · rfl
              · exact absurd hpp hp
            rw [scanStream_emit ctx c cs hf hp',
              substAll_plain ctx c cs hf, List.cons_append]
            have hd : cs.length ≤ n := by
              simp only [List.length_cons] at hn; omega
            rw [ih cs hd]
  intro s
  exact main s.length s (le_refl _)

theorem scanStream_snd (ctx : MaskCtx) :
    ∀ s : Str,
      scanStream ctx ((scanStream ctx s).2) = ([], (scanStream ctx s).2) := by
  have main : ∀ (n : Nat) (s : Str), s.length ≤ n →
      scanStream ctx ((scanStream ctx s).2) =
        ([], (scanStream ctx s).2) := by
    intro n
    induction n with
    | zero =>
      intro s hn
      have hs : s = [] := List.eq_nil_of_length_eq_zero (Nat.le_zero.mp hn)
      subst hs
      exact scanStream_nil ctx
    | succ n ih =>
      intro s hn
      cases s with
      | nil => exact scanStream_nil ctx
      | cons c cs =>
        cases hf : findTok ctx (c :: cs) with
        | some tv =>
          obtain ⟨t, v⟩ := tv
          obtain ⟨hne, hpre, _⟩ := findTok_some ctx (c :: cs) t v hf
          have htlen : 1 ≤ t.length := by
            cases t with
            | nil => exact absurd rfl hne
            | cons a b => simp
          rw [scanStream_found ctx (c :: cs) t v hf]
          have hd : ((c :: cs).drop t.length).length ≤ n := by
            rw [List.length_drop]
            simp only [List.length_cons] at hn ⊢
            omega
          exact ih ((c :: cs).drop t.length) hd
        | none =>
          by_cases hp : isPrefixTok ctx (c :: cs) = true
          · rw [scanStream_withhold ctx (c :: cs) (by simp) hf hp]
            exact scanStream_withhold ctx (c :: cs) (by simp) hf hp
          · have hp' : isPrefixTok ctx (c :: cs) = false := by
              cases hpp : isPrefixTok ctx (c :: cs)
              · rfl
              · exact absurd hpp hp
            rw [scanStream_emit ctx c cs hf hp']
            have hd : cs.length ≤ n := by
              simp only [List.length_cons] at hn; omega
            exact ih cs hd
  intro s
  exact main s.length s (le_refl _)

theorem feedAll_eq (ctx : MaskCtx) (hw : WFCtx ctx) :
    ∀ (cs : List Str) (b : Str), scanStream ctx b = ([], b) →
      feedAll ctx b cs =
        ((scanStream ctx (b ++ cs.flatten)).1,
          (scanStream ctx (b ++ cs.flatten)).2) := by
  intro cs
  induction cs with
  | nil =>
    intro b hb
    rw [feedAll, List.flatten_nil, List.append_nil, hb]
  | cons c cs ih =>
    intro b hb
    rw [feedAll, List.flatten_cons, ← List.append_assoc]
    have hinv : scanStream ctx ((scanStream ctx (b ++ c)).2) =
        ([], (scanStream ctx (b ++ c)).2) := scanStream_snd ctx (b ++ c)
    rw [scanStream_append ctx hw (b ++ c) cs.flatten]
    dsimp only
    rw [unmaskStreamChunk, ih ((scanStream ctx (b ++ c)).2) hinv]

/-! ## Helper lemmas: the concrete event codec -/

theorem parseEnv_wrap (c : Str) : parseEnv (wrapEnv c) = some c := by
  have h1 : envPre.isPrefixOf (wrapEnv c) = true := by
    rw [List.isPrefixOf_iff_prefix, wrapEnv, List.append_assoc]
    exact List.prefix_append _ _
  have h2 : envSuf.isSuffixOf (wrapEnv c) = true := by
    rw [List.isSuffixOf_iff_suffix, wrapEnv]
    exact List.suffix_append _ _
  have h3 : envPre.length + envSuf.length ≤ (wrapEnv c).length := by
    rw [wrapEnv]
    simp [List.length_append]
  rw [parseEnv, if_pos ⟨h1, h2, h3⟩]
  have h4 : (wrapEnv c).drop envPre.length = c ++ envSuf := by
    rw [wrapEnv, List.append_assoc, List.drop_left]
  rw [h4]
  have h5 : (c ++ envSuf).length - 2 = c.length := by
    rw [List.length_append]
    have : envSuf.length = 2 := by decide
    omega
  rw [h5, List.take_left]

theorem wrapEnv_ne_done (p : Str) : wrapEnv p ≠ doneData := by
  intro h
  have h1 : envPre = '\x7b' :: "\"content\":\"".toList := by decide
  have h2 : doneData = '[' :: "DONE]".toList := by decide
  rw [wrapEnv, h1, h2] at h
  simp at h

theorem decodeContent_event (c : Str) :
    decodeContent (dataPrefix ++ wrapEnv c ++ nl2) = c := by
  have h1 : dataPrefix.isPrefixOf (dataPrefix ++ wrapEnv c ++ nl2) = true := by
    rw [List.isPrefixOf_iff_prefix, List.append_assoc]
    exact List.prefix_append _ _
  have h2 : nl2.isSuffixOf (dataPrefix ++ wrapEnv c ++ nl2) = true := by
    rw [List.isSuffixOf_iff_suffix]
    exact List.suffix_append _ _
  have h3 : dataPrefix.length + nl2.length ≤
      (dataPrefix ++ wrapEnv c ++ nl2).length := by
    simp [List.length_append, wrapEnv]
    omega
  rw [decodeContent, if_pos ⟨h1, h2, h3⟩]
  have h6 : dataPrefix.length = 6 := by decide
  have h4 : (dataPrefix ++ wrapEnv c ++ nl2).drop 6 = wrapEnv c ++ nl2 := by
    rw [← h6, List.append_assoc, List.drop_left]
  rw [h4]
  have h5 : (wrapEnv c ++ nl2).length - 2 = (wrapEnv c).length := by
    rw [List.length_append]
    have : nl2.length = 2 := by decide
    omega
  rw [h5, List.take_left, parseEnv_wrap]

theorem nl_not_mem_wrapEnv (p : Str) (hp : ('\n') ∉ p) :
    ('\n') ∉ wrapEnv p := by
  intro h
  rw [wrapEnv] at h
  rcases List.mem_append.mp h with h | h
  · rcases List.mem_append.mp h with h | h
    · exact absurd h (by decide)
    · exact hp h
  · exact absurd h (by decide)

theorem evLines_cons (p : Str) (ps : List Str) :
    evLines (p :: ps) = (dataPrefix ++ wrapEnv p) :: [] :: evLines ps := by
  simp [evLines]

theorem splitNL_events :
    ∀ ps : List Str, (∀ p ∈ ps, ('\n') ∉ p) →
      splitNL ((ps.map mkEvent).flatten) = evLines ps := by
  intro ps
  induction ps with
  | nil => intro _; rfl
  | cons p ps ih =>
    intro hnl
    rw [List.map_cons, List.flatten_cons, evLines_cons]
    have hsh : mkEvent p ++ (ps.map mkEvent).flatten =
        (dataPrefix ++ wrapEnv p) ++
          '\n' :: ('\n' :: (ps.map mkEvent).flatten) := by
      rw [mkEvent]
      have : nl2 = '\n' :: '\n' :: [] := by decide
      rw [this, List.append_assoc, List.append_assoc]
      rfl
    rw [hsh, splitNL_append_cons]
    · rw [splitNL, if_pos rfl, ih (fun q hq => hnl q (List.mem_cons_of_mem _ hq))]
    · intro h
      rcases List.mem_append.mp h with h | h
      · exact absurd h (by decide)
      · exact nl_not_mem_wrapEnv p (hnl p (List.mem_cons_self _ _)) h

theorem processLine_empty_line {Env : Type} (codec : Codec Env)
    (pii sec : Option CtxOps) (st : BufSt) :
    processLine codec pii sec st [] = (st, []) := by
  rw [processLine_not_data codec pii sec st [] (by decide)]
  rfl

theorem processLine_event (ctx : MaskCtx) (st : BufSt) (p : Str) :
    processLine miniCodec (some (piiOps ctx)) none st
        (dataPrefix ++ wrapEnv p) =
      if p.isEmpty then (st, [mkEvent p])
      else
        (⟨(scanStream ctx (st.piiBuffer ++ p)).2, st.secretsBuffer⟩,
          if (scanStream ctx (st.piiBuffer ++ p)).1.isEmpty then []
          else [mkEvent (scanStream ctx (st.piiBuffer ++ p)).1]) := by
  have hpre : dataPrefix.isPrefixOf (dataPrefix ++ wrapEnv p) = true := by
    rw [List.isPrefixOf_iff_prefix]
    exact List.prefix_append _ _
  have h6 : dataPrefix.length = 6 := by decide
  have hdrop : (dataPrefix ++ wrapEnv p).drop 6 = wrapEnv p := by
    rw [← h6, List.drop_left]
  have hdone : (dataPrefix ++ wrapEnv p).drop 6 ≠ doneData := by
    rw [hdrop]; exact wrapEnv_ne_done p
  have hparse : miniCodec.parse ((dataPrefix ++ wrapEnv p).drop 6) = some p := by
    rw [hdrop]
    exact parseEnv_wrap p
  simp only [processLine, hpre, if_true, hdone, if_false, hparse]
  dsimp only [miniCodec, piiOps, unmaskStreamChunk, id]
  by_cases hp : p.isEmpty = true
  · rw [if_pos hp, if_pos hp, hdrop]
    rfl
  · rw [if_neg hp, if_neg hp]
    by_cases ho : (scanStream ctx (st.piiBuffer ++ p)).1.isEmpty = true
    · rw [if_pos ho, if_pos ho]
    · rw [if_neg ho, if_neg ho]
      rfl

theorem processLines_events (ctx : MaskCtx) (hw : WFCtx ctx) :
    ∀ (ps : List Str) (b : Str),
      scanStream ctx b = ([], b) → (∀ p ∈ ps, ('\n') ∉ p) →
      ∃ evs : List Str,
        processLines miniCodec (some (piiOps ctx)) none ⟨b, []⟩ (evLines ps) =
          (⟨(scanStream ctx (b ++ ps.flatten)).2, []⟩, evs) ∧
        (evs.map decodeContent).flatten =
          (scanStream ctx (b ++ ps.flatten)).1 := by
  intro ps
  induction ps with
  | nil =>
    intro b hb _
    refine ⟨[], ?_, ?_⟩
    · show processLines miniCodec (some (piiOps ctx)) none ⟨b, []⟩ [[]] = _
      simp [processLines, processLine_empty_line, hb]
    · simp [hb]
  | cons p ps ih =>
    intro b hb hnl
    by_cases hpnil : p = []
    · subst hpnil
      obtain ⟨evs, heq, hcont⟩ :=
        ih b hb (fun q hq => hnl q (List.mem_cons_of_mem _ hq))
      refine ⟨mkEvent [] :: evs, ?_, ?_⟩
      · rw [evLines_cons, processLines, processLine_event,
          if_pos (show ([] : Str).isEmpty = true from rfl)]
        dsimp only
        rw [processLines, processLine_empty_line]
        dsimp only
        rw [heq]
        simp
      · simp [mkEvent, hcont]
        rw [← List.append_assoc]
        exact decodeContent_event []
    · have hp : p.isEmpty = false := by
        cases hpp : p.isEmpty
        · rfl
        · exact absurd (List.isEmpty_iff.mp hpp) hpnil
      have hinv := scanStream_snd ctx (b ++ p)
      obtain ⟨evs, heq, hcont⟩ :=
        ih ((scanStream ctx (b ++ p)).2) hinv
          (fun q hq => hnl q (List.mem_cons_of_mem _ hq))
      have happ := scanStream_append ctx hw (b ++ p) ps.flatten
      rw [List.append_assoc] at happ
      refine ⟨(if (scanStream ctx (b ++ p)).1.isEmpty then []
          else [mkEvent (scanStream ctx (b ++ p)).1]) ++ evs, ?_, ?_⟩
      · rw [evLines_cons, processLines, processLine_event,
          if_neg (by rw [hp]; exact Bool.false_ne_true)]
        dsimp only
        rw [processLines, processLine_empty_line]
        dsimp only
        rw [heq]
        dsimp only
        rw [List.flatten_cons, happ]
        simp
      · rw [List.flatten_cons, happ]
        dsimp only
        rw [List.map_append, List.flatten_append, hcont]
        by_cases ho : (scanStream ctx (b ++ p)).1.isEmpty = true
        · rw [if_pos ho, List.isEmpty_iff.mp ho]
          simp
        · rw [if_neg ho]
          simp [mkEvent]
          rw [← List.append_assoc]
          exact decodeContent_event _

theorem processChunks_grouped (ctx : MaskCtx) (hw : WFCtx ctx) :
    ∀ (g : List (List Str)) (b : Str),
      scanStream ctx b = ([], b) →
      (∀ grp ∈ g, ∀ p ∈ grp, ('\n') ∉ p) →
      ∃ evs : List Str,
        processChunks miniCodec (some (piiOps ctx)) none ⟨b, []⟩
            (g.map fun grp => (grp.map mkEvent).flatten) =
          (⟨(scanStream ctx (b ++ g.flatten.flatten)).2, []⟩, evs) ∧
        (evs.map decodeContent).flatten =
          (scanStream ctx (b ++ g.flatten.flatten)).1 := by
  intro g
  induction g with
  | nil =>
    intro b hb _
    refine ⟨[], ?_, ?_⟩
    · simp [processChunks, hb]
    · simp [hb]
  | cons grp g ih =>
    intro b hb hnl
    have hshape : b ++ (grp :: g).flatten.flatten =
        (b ++ grp.flatten) ++ g.flatten.flatten := by
      rw [List.flatten_cons, List.flatten_append, List.append_assoc]
    have happ := scanStream_append ctx hw (b ++ grp.flatten) g.flatten.flatten
    obtain ⟨evs1, heq1, hcont1⟩ :=
      processLines_events ctx hw grp b hb (hnl grp (List.mem_cons_self _ _))
    have hinv : scanStream ctx ((scanStream ctx (b ++ grp.flatten)).2) =
        ([], (scanStream ctx (b ++ grp.flatten)).2) :=
      scanStream_snd ctx (b ++ grp.flatten)
    obtain ⟨evs2, heq2, hcont2⟩ :=
      ih ((scanStream ctx (b ++ grp.flatten)).2) hinv
        (fun q hq => hnl q (List.mem_cons_of_mem _ hq))
    refine ⟨evs1 ++ evs2, ?_, ?_⟩
    · rw [List.map_cons, processChunks, processChunk,
        splitNL_events grp (hnl grp (List.mem_cons_self _ _)), heq1]
      dsimp only
      rw [heq2]
      dsimp only
      rw [hshape, happ]
    · rw [hshape, happ]
      dsimp only
      rw [List.map_append, List.flatten_append, hcont1, hcont2]

/-! ## Claim theorems for the stream round trip -/

/-- C1 counterexample: the masked text `"[[0]]"` (one placeholder token,
original value `"Bob"`) is serialised as one SSE event and the byte
stream is split in the middle of the SSE line.  The chunks reassemble to
exactly the masked event stream, the token grammar is well formed, yet
the stream output does not carry the unmasked text: the transform splits
each chunk on newlines without buffering partial lines, so the broken
line never parses and is forwarded masked. -/
theorem C1_counterexample :
    "data: \x7b\"con".toList ++ "tent\":\"[[0]]\"\x7d\n\n".toList =
      mkEvent "[[0]]".toList ∧
    WFCtx [("[[0]]".toList, "Bob".toList)] ∧
    substAll [("[[0]]".toList, "Bob".toList)] "[[0]]".toList =
      "Bob".toList ∧
    (((runStream miniCodec
          (some (piiOps [("[[0]]".toList, "Bob".toList)])) none
          ["data: \x7b\"con".toList, "tent\":\"[[0]]\"\x7d\n\n".toList]
          UpstreamEnd.eof).events).map decodeContent).flatten ≠
      substAll [("[[0]]".toList, "Bob".toList)] "[[0]]".toList := by
  refine ⟨by decide, by decide, by decide, by decide⟩

/-- C1 amended: for every well-formed masking context (non-empty,
prefix-free placeholder tokens), every newline-free masked text, every
split of that text into pieces (including splits in the middle of a
placeholder token) serialised as one SSE event per piece, and every
grouping of those events into chunks at event boundaries, running the
unmasking stream reproduces exactly the unmasked text — the
concatenation of the decoded contents of the emitted events (including
the final flush event) equals the full substitution of the masked text.
Splits in the middle of an SSE line are not supported (see the
counterexample). -/
theorem C1_stream_round_trip (ctx : MaskCtx) (g : List (List Str))
    (hw : WFCtx ctx) (hnl : ∀ p ∈ g.flatten, ('\n') ∉ p) :
    (((runStream miniCodec (some (piiOps ctx)) none
        (g.map fun grp => (grp.map mkEvent).flatten)
        UpstreamEnd.eof).events).map decodeContent).flatten =
      substAll ctx g.flatten.flatten := by
  have hnl' : ∀ grp ∈ g, ∀ p ∈ grp, ('\n') ∉ p := by
    intro grp hgrp p hp
    exact hnl p (List.mem_flatten.mpr ⟨grp, hgrp, hp⟩)
  obtain ⟨evs, heq, hcont⟩ :=
    processChunks_grouped ctx hw g [] (scanStream_nil ctx) hnl'
  rw [List.nil_append] at heq hcont
  have hsub := scanStream_subst ctx g.flatten.flatten
  simp only [runStream]
  rw [heq]
  dsimp only
  rw [List.map_append, List.flatten_append, hcont]
  rw [flushOutputs]
  dsimp only [piiOps, flushStreamBuffer]
  by_cases hbf : ((scanStream ctx g.flatten.flatten).2).isEmpty = true
  · rw [if_pos hbf]
    have hbfe : (scanStream ctx g.flatten.flatten).2 = [] :=
      List.isEmpty_iff.mp hbf
    rw [hbfe] at hsub
    simpa [substAll_nil] using hsub
  · rw [if_neg hbf]
    simp only [List.isEmpty_nil, if_true]
    by_cases hfl : (substAll ctx ((scanStream ctx g.flatten.flatten).2) ++
        ([] : Str)).isEmpty = true
    · rw [if_pos hfl]
      have : substAll ctx ((scanStream ctx g.flatten.flatten).2) = [] := by
        have := List.isEmpty_iff.mp hfl
        simpa using this
      rw [this] at hsub
      simpa using hsub
    · rw [if_neg hfl, List.map_cons]
      dsimp only [List.map_nil, miniCodec]
      rw [decodeContent_event, List.flatten_cons, List.flatten_nil,
        List.append_nil]
      simpa using hsub

/-- Witness for C1's amended theorem: the masked text `"hi [[0]]!"` split
mid-token into the pieces `"hi [["` and `"0]]!"`, one event per piece,
delivered as two chunks; the output contents reassemble to the unmasked
text, which is `"hi Bob!"`. -/
theorem C1_stream_round_trip_witness :
    WFCtx [("[[0]]".toList, "Bob".toList)] ∧
    substAll [("[[0]]".toList, "Bob".toList)]
        ([[("hi [[".toList : Str)], ["0]]!".toList]].flatten.flatten) =
      "hi Bob!".toList ∧
    (((runStream miniCodec
        (some (piiOps [("[[0]]".toList, "Bob".toList)])) none
        ([[("hi [[".toList : Str)], ["0]]!".toList]].map
          fun grp => (grp.map mkEvent).flatten)
        UpstreamEnd.eof).events).map decodeContent).flatten =
      substAll [("[[0]]".toList, "Bob".toList)]
        ([[("hi [[".toList : Str)], ["0]]!".toList]].flatten.flatten) :=
  ⟨by decide, by decide,
    C1_stream_round_trip [("[[0]]".toList, "Bob".toList)]
      [[("hi [[".toList : Str)], ["0]]!".toList]] (by decide) (by decide)⟩
